import Mathlib

/-!
TrimImageC: background estimation, content bounding box, crop and scale.

A shallow embedding of the pixel-analysis functions of `main.cpp`
(`findBackgroundColor`, `findContentBoundingBox`, `trimImage`, `resizeImage`)
and of the loop over the input files in `main`, together with theorems about them.

Modelling conventions.

* A pixel buffer (`const unsigned char*`) is a `List Nat` of byte samples.  A
  read or a write through a pointer is a bounds-checked access: outside the
  buffer the C program has no defined behaviour and the embedding returns
  `none`.
* `int` and `size_t` values are `Int` and `Nat`.  Every value the functions
  compute is bounded by the buffer dimensions, so no width-limited wrap-around
  is involved.  Image dimensions and channel counts are the non-negative
  values handed over by the decoder and are `Nat`.
* A `for (int i = 0; i < n; ++i)` loop is `forLoop n body`, a left fold of the
  body over `0, 1, ..., n-1` that stops at the first failing access.
* A finite `double` is the rational number it denotes; every arithmetic operation
  of `resizeImage` rounds its exact result to the nearest value with a 53-bit
  significand, ties to even, as IEEE 754 binary64 arithmetic does.
* The decoder, the allocations, the resampler and the PNG writer are parameters:
  each input of the loop of `main` comes with the behaviour of these services on it.
-/

namespace TrimImage

/-! ## Data model -/

/-- Colour with four 8-bit channels (`struct ColorRGBA`). -/
structure ColorRGBA where
  r : Nat
  g : Nat
  b : Nat
  a : Nat
  deriving DecidableEq, Repr

/-- Lexicographic comparison `ColorRGBA::operator<`, the key order of the colour map. -/
def ColorRGBA.lt (x other : ColorRGBA) : Bool :=
  if x.r ≠ other.r then decide (x.r < other.r)
  else if x.g ≠ other.g then decide (x.g < other.g)
  else if x.b ≠ other.b then decide (x.b < other.b)
  else decide (x.a < other.a)

/-- Inclusive pixel rectangle (`struct BoundingBox`). -/
structure BoundingBox where
  top : Int
  left : Int
  bottom : Int
  right : Int
  deriving DecidableEq, Repr

/-- Member `BoundingBox::width()`. -/
def BoundingBox.width (bbox : BoundingBox) : Int :=
  if bbox.right ≥ bbox.left then bbox.right - bbox.left + 1 else 0

/-- Member `BoundingBox::height()`. -/
def BoundingBox.height (bbox : BoundingBox) : Int :=
  if bbox.bottom ≥ bbox.top then bbox.bottom - bbox.top + 1 else 0

/-- Member `BoundingBox::isValid()`. -/
def BoundingBox.isValid (bbox : BoundingBox) : Bool :=
  decide (bbox.width > 0) && decide (bbox.height > 0)

/-! ## Memory accesses and loops -/

/-- Read of `base[i]`: the sample at offset `i`, or `none` outside the buffer. -/
def readByte (pixels : List Nat) (i : Int) : Option Nat :=
  if 0 ≤ i then pixels[i.toNat]? else none

/-- Write `base[i] = v`: the updated buffer, or `none` outside the buffer. -/
def writeByte (pixels : List Nat) (i : Int) (v : Nat) : Option (List Nat) :=
  if 0 ≤ i ∧ i.toNat < pixels.length then some (pixels.set i.toNat v) else none

/-- Loop `for (int i = 0; i < n; ++i) body`, threading the mutable state `s`. -/
def forLoop {σ : Type} (n : Nat) (body : Nat → σ → Option σ) (s : σ) : Option σ :=
  (List.range n).foldlM (fun st i => body i st) s

/-- Pixel load shared by both scans: `p[0]`, `p[1]`, `p[2]` and
`(channels == 4) ? p[3] : 255`, where `p = pixels + offset`. -/
def loadColor (pixels : List Nat) (offset : Int) (channels : Nat) : Option ColorRGBA := do
  let r ← readByte pixels offset
  let g ← readByte pixels (offset + 1)
  let b ← readByte pixels (offset + 2)
  let a ← if channels = 4 then readByte pixels (offset + 3) else some 255
  pure { r := r, g := g, b := b, a := a }

/-! ## The colour-count map (`std::map<ColorRGBA, size_t>`) -/

/-- Key equivalence of the ordered map: neither key is less than the other. -/
def keyEquiv (x y : ColorRGBA) : Bool :=
  !(x.lt y) && !(y.lt x)

/-- Value of `colorCounts[k]`; an absent key is value-initialised to `0`. -/
def mapGet : List (ColorRGBA × Nat) → ColorRGBA → Nat
  | [], _ => 0
  | (k', v) :: rest, k => if keyEquiv k k' then v else mapGet rest k

/-- Effect of `colorCounts[k]++`. -/
def mapIncr : List (ColorRGBA × Nat) → ColorRGBA → List (ColorRGBA × Nat)
  | [], k => [(k, 1)]
  | (k', v) :: rest, k =>
    if keyEquiv k k' then (k', v + 1) :: rest else (k', v) :: mapIncr rest k

/-! ## `findBackgroundColor` -/

/-- Local variables of `findBackgroundColor`. -/
structure BgScan where
  colorCounts : List (ColorRGBA × Nat)
  maxCount : Nat
  backgroundColor : ColorRGBA
  deriving Repr

/-- Body of the inner loop of `findBackgroundColor` at pixel `(x, y)`. -/
def bgBody (pixels : List Nat) (width channels : Nat) (y x : Nat) (s : BgScan) :
    Option BgScan := do
  let color ← loadColor pixels (((y * width + x) * channels : Nat) : Int) channels
  if channels = 4 ∧ color.a = 0 then
    pure s
  else
    let colorCounts := mapIncr s.colorCounts color
    if mapGet colorCounts color > s.maxCount then
      pure { colorCounts := colorCounts, maxCount := mapGet colorCounts color,
             backgroundColor := color }
    else
      pure { s with colorCounts := colorCounts }

/-- Function `findBackgroundColor(pixels, width, height, channels)`. -/
def findBackgroundColor (pixels : List Nat) (width height channels : Nat) :
    Option ColorRGBA := do
  let init : BgScan :=
    { colorCounts := [], maxCount := 0, backgroundColor := ⟨255, 255, 255, 255⟩ }
  let s ← forLoop height (fun y s => forLoop width (bgBody pixels width channels y) s) init
  pure s.backgroundColor

/-! ## `findContentBoundingBox` -/

/-- Local variables of `findContentBoundingBox`. -/
structure BoxScan where
  bbox : BoundingBox
  contentFound : Bool
  deriving Repr

/-- Body of the inner loop of `findContentBoundingBox` at pixel `(x, y)`. -/
def boxBody (pixels : List Nat) (width channels : Nat) (bgColor : ColorRGBA) (y x : Nat)
    (s : BoxScan) : Option BoxScan := do
  let pixelColor ← loadColor pixels (((y * width + x) * channels : Nat) : Int) channels
  let isBackground : Bool := decide (pixelColor = bgColor)
  let isBackground : Bool :=
    if channels = 4 ∧ pixelColor.a < 10 then true else isBackground
  if !isBackground then
    let bbox := s.bbox
    let bbox := if (y : Int) < bbox.top then { bbox with top := y } else bbox
    let bbox := if (y : Int) > bbox.bottom then { bbox with bottom := y } else bbox
    let bbox := if (x : Int) < bbox.left then { bbox with left := x } else bbox
    let bbox := if (x : Int) > bbox.right then { bbox with right := x } else bbox
    pure { bbox := bbox, contentFound := true }
  else
    pure s

/-- Function `findContentBoundingBox(pixels, width, height, channels, bgColor)`. -/
def findContentBoundingBox (pixels : List Nat) (width height channels : Nat)
    (bgColor : ColorRGBA) : Option BoundingBox := do
  let init : BoxScan :=
    { bbox := { top := height, left := width, bottom := -1, right := -1 },
      contentFound := false }
  let s ← forLoop height
    (fun y s => forLoop width (boxBody pixels width channels bgColor y) s) init
  if !s.contentFound then
    pure { top := 0, left := 0, bottom := -1, right := -1 }
  else
    pure s.bbox

/-! ## `trimImage` -/

/-- Results of `trimImage`: the returned pointer (`none` is `nullptr`) and the
two output parameters. -/
structure TrimResult where
  pixels : Option (List Nat)
  outWidth : Int
  outHeight : Int
  deriving DecidableEq, Repr

/-- Body of the inner loop of `trimImage` at destination pixel `(x, y)`. -/
def trimBody (originalPixels : List Nat) (originalWidth channels : Nat) (bbox : BoundingBox)
    (outWidth : Int) (y x : Nat) (trimmedPixels : List Nat) : Option (List Nat) := do
  let srcX : Int := bbox.left + x
  let srcY : Int := bbox.top + y
  let src : Int := (srcY * originalWidth + srcX) * channels
  let dst : Int := ((y : Int) * outWidth + x) * 4
  let v0 ← readByte originalPixels src
  let trimmedPixels ← writeByte trimmedPixels dst v0
  let v1 ← readByte originalPixels (src + 1)
  let trimmedPixels ← writeByte trimmedPixels (dst + 1) v1
  let v2 ← readByte originalPixels (src + 2)
  let trimmedPixels ← writeByte trimmedPixels (dst + 2) v2
  let v3 ← if channels = 4 then readByte originalPixels (src + 3) else some 255
  writeByte trimmedPixels (dst + 3) v3

/-- Function `trimImage(originalPixels, originalWidth, channels, bbox, outWidth, outHeight)`.
The argument `alloc` stands for `new (std::nothrow) unsigned char[n]`: it yields
`none` when the allocation fails and otherwise a buffer of `n` samples. -/
def trimImage (alloc : Nat → Option (List Nat)) (originalPixels : List Nat)
    (originalWidth channels : Nat) (bbox : BoundingBox) : Option TrimResult :=
  let outWidth := bbox.width
  let outHeight := bbox.height
  if !bbox.isValid then
    some { pixels := none, outWidth := outWidth, outHeight := outHeight }
  else
    let trimmedSize : Nat := outWidth.toNat * outHeight.toNat * 4
    match alloc trimmedSize with
    | none => some { pixels := none, outWidth := outWidth, outHeight := outHeight }
    | some trimmedPixels => do
      let trimmedPixels ← forLoop outHeight.toNat
        (fun y buf => forLoop outWidth.toNat
          (trimBody originalPixels originalWidth channels bbox outWidth y) buf)
        trimmedPixels
      pure { pixels := some trimmedPixels, outWidth := outWidth, outHeight := outHeight }

/-! ## `resizeImage`: output dimensions -/

/-- Constant `TARGET_WIDTH`. -/
def TARGET_WIDTH : Int := 360

/-- Constant `TARGET_HEIGHT`. -/
def TARGET_HEIGHT : Int := 180

/-- Values of type `double`: a finite value, given by the rational number it denotes,
an infinity with its sign, or a NaN.  The sign of a zero is not kept: it has no
effect on the integers that `resizeImage` computes. -/
inductive Dbl where
  | fin (q : ℚ)
  | inf (negative : Bool)
  | nan
  deriving DecidableEq, Repr

/-- Nearest integer, halfway cases to the even neighbour. -/
def roundHalfEven (r : ℚ) : Int :=
  if r - ⌊r⌋ < 1 / 2 then ⌊r⌋
  else if 1 / 2 < r - ⌊r⌋ then ⌊r⌋ + 1
  else if ⌊r⌋ % 2 = 0 then ⌊r⌋ else ⌊r⌋ + 1

/-- Distance between neighbouring `double` values around `q`: for
`2^e ≤ |q| < 2^(e+1)` it is `2^(e-52)`, which makes a significand of 53 bits. -/
def ulp (q : ℚ) : ℚ := (2 : ℚ) ^ (Int.log 2 |q|) / 2 ^ 52

/-- Rounding of an exact result to `double` in the default rounding mode: to the
nearest value, ties to the even significand.  The exponent range is not limited;
for arguments of type `int` every value that `resizeImage` computes lies far inside
the normal range of `double`. -/
def fl (q : ℚ) : ℚ := if q = 0 then 0 else (roundHalfEven (q / ulp q) : ℚ) * ulp q

/-- Library function `std::round`: nearest integer, halfway cases away from zero. -/
def stdRound (q : ℚ) : Int :=
  if 0 ≤ q then ⌊q + 1 / 2⌋ else -⌊-q + 1 / 2⌋

/-- Quotient `static_cast<double>(a) / b` of two `int` values; the conversions to
`double` are exact, and a division by zero gives an infinity or a NaN. -/
def Dbl.divInt (a b : Int) : Dbl :=
  if b = 0 then (if a = 0 then .nan else .inf (decide (a < 0)))
  else .fin (fl ((a : ℚ) / b))

/-- Comparison `x < y` of two `double` values; it is false when one of them is a NaN. -/
def Dbl.lt : Dbl → Dbl → Bool
  | .fin p, .fin q => decide (p < q)
  | .fin _, .inf negative => !negative
  | .inf negative, .fin _ => negative
  | .inf n1, .inf n2 => n1 && !n2
  | _, _ => false

/-- Library function `std::min(a, b)`, which is `(b < a) ? b : a`. -/
def Dbl.min (a b : Dbl) : Dbl := if Dbl.lt b a then b else a

/-- Product `n * x` of an `int`, converted exactly, and a `double`. -/
def Dbl.mulInt (n : Int) : Dbl → Dbl
  | .fin q => .fin (fl ((n : ℚ) * q))
  | .inf negative => if n = 0 then .nan else .inf (xor negative (decide (n < 0)))
  | .nan => .nan

/-- Library function `std::round` on `double`: the result is an integer and exact. -/
def Dbl.round : Dbl → Dbl
  | .fin q => .fin (stdRound q)
  | x => x

/-- Conversion `static_cast<int>(x)`: truncation toward zero.  For a NaN, an infinity
or a value outside the range of `int` C++ defines no result; the embedding yields
`INT_MIN` there, as the x86-64 conversion instruction does. -/
def Dbl.toInt : Dbl → Int
  | .fin q =>
    if -2147483649 < q ∧ q < 2147483648 then (if 0 ≤ q then ⌊q⌋ else ⌈q⌉)
    else -2147483648
  | _ => -2147483648

/-- Values of `outWidth` and `outHeight` in `resizeImage` after lines 156-160, before
the clamp: the scale factor and the two rounded products, computed in `double`. -/
def resizeImageRaw (inputWidth inputHeight : Int) : Int × Int :=
  let scaleFactor : Dbl :=
    Dbl.min (Dbl.divInt TARGET_WIDTH inputWidth) (Dbl.divInt TARGET_HEIGHT inputHeight)
  let outWidth : Int := Dbl.toInt (Dbl.round (Dbl.mulInt inputWidth scaleFactor))
  let outHeight : Int := Dbl.toInt (Dbl.round (Dbl.mulInt inputHeight scaleFactor))
  (outWidth, outHeight)

/-- Output dimensions `(outWidth, outHeight)` computed by `resizeImage` before it
allocates and resamples: the rounded products, each raised to at least `1`. -/
def resizeImageDims (inputWidth inputHeight : Int) : Int × Int :=
  let outWidth := (resizeImageRaw inputWidth inputHeight).1
  let outHeight := (resizeImageRaw inputWidth inputHeight).2
  let outWidth := max 1 outWidth
  let outHeight := max 1 outHeight
  (outWidth, outHeight)

/-- Allocator that always succeeds, handing out a zero-filled buffer. -/
def allocZero (n : Nat) : Option (List Nat) := some (List.replicate n 0)

/-! ## Vocabulary of the specification -/

/-- Sample `i` of a buffer, `0` outside of it. -/
def sample (pixels : List Nat) (i : Nat) : Nat := pixels.getD i 0

/-- The colour of pixel `(x, y)` of a row-major buffer: its stored `R, G, B` and its
derived alpha, which is the stored alpha of a 4-channel buffer and `255` otherwise. -/
def pixelAt (pixels : List Nat) (width channels x y : Nat) : ColorRGBA :=
  { r := sample pixels ((y * width + x) * channels)
    g := sample pixels ((y * width + x) * channels + 1)
    b := sample pixels ((y * width + x) * channels + 2)
    a := if channels = 4 then sample pixels ((y * width + x) * channels + 3) else 255 }

/-- Background classification of the bounding-box stage: the colour equals the
background colour, or the buffer has four channels and the alpha is below `10`. -/
def IsBackground (channels : Nat) (bg p : ColorRGBA) : Prop :=
  p = bg ∨ (channels = 4 ∧ p.a < 10)

instance (channels : Nat) (bg p : ColorRGBA) : Decidable (IsBackground channels bg p) := by
  unfold IsBackground; infer_instance

/-- Pixel `(x, y)` lies in the buffer and is not background. -/
def IsContent (pixels : List Nat) (width height channels : Nat) (bg : ColorRGBA)
    (x y : Nat) : Prop :=
  x < width ∧ y < height ∧ ¬ IsBackground channels bg (pixelAt pixels width channels x y)

instance (pixels : List Nat) (width height channels : Nat) (bg : ColorRGBA) (x y : Nat) :
    Decidable (IsContent pixels width height channels bg x y) := by
  unfold IsContent; infer_instance

/-- A well-formed buffer: exactly `width * height * channels` samples. -/
def WellFormed (pixels : List Nat) (width height channels : Nat) : Prop :=
  pixels.length = width * height * channels

instance (pixels : List Nat) (width height channels : Nat) :
    Decidable (WellFormed pixels width height channels) := by
  unfold WellFormed; infer_instance

/-- Row `y` of the image, left to right. -/
def imageRow (pixels : List Nat) (width channels y : Nat) : List ColorRGBA :=
  (List.range width).map (fun x => pixelAt pixels width channels x y)

/-- All pixels of the image in row-major scan order. -/
def imagePixels (pixels : List Nat) (width height channels : Nat) : List ColorRGBA :=
  (List.range height).flatMap (imageRow pixels width channels)

/-- A pixel counts toward the colour frequencies when its derived alpha is not `0`. -/
def isCounted (p : ColorRGBA) : Bool := decide (p.a ≠ 0)

/-- The non-fully-transparent pixels of the image in row-major scan order. -/
def countedPixels (pixels : List Nat) (width height channels : Nat) : List ColorRGBA :=
  (imagePixels pixels width height channels).filter isCounted

/-- White with full alpha, the default background colour. -/
def white : ColorRGBA := { r := 255, g := 255, b := 255, a := 255 }

/-! ## Definitions used in the statements and proofs -/

/-- Invariant of the bounding-box scan, relative to the set `P` of pixels visited so
far: `contentFound` records whether a visited pixel is content, the box encloses all
visited content, and each side still has its initial value or is attained. -/
structure BoxInv (pixels : List Nat) (width height channels : Nat) (bg : ColorRGBA)
    (P : Nat → Nat → Prop) (s : BoxScan) : Prop where
  found : s.contentFound = true ↔
    ∃ x y, P x y ∧ IsContent pixels width height channels bg x y
  encl : ∀ x y, P x y → IsContent pixels width height channels bg x y →
    s.bbox.left ≤ x ∧ (x : Int) ≤ s.bbox.right ∧ s.bbox.top ≤ y ∧ (y : Int) ≤ s.bbox.bottom
  top : s.bbox.top = height ∨
    ∃ x y, P x y ∧ IsContent pixels width height channels bg x y ∧ s.bbox.top = y
  left : s.bbox.left = width ∨
    ∃ x y, P x y ∧ IsContent pixels width height channels bg x y ∧ s.bbox.left = x
  bottom : s.bbox.bottom = -1 ∨
    ∃ x y, P x y ∧ IsContent pixels width height channels bg x y ∧ s.bbox.bottom = y
  right : s.bbox.right = -1 ∨
    ∃ x y, P x y ∧ IsContent pixels width height channels bg x y ∧ s.bbox.right = x

/-- Initial state of the bounding-box scan. -/
def boxInit (width height : Nat) : BoxScan :=
  { bbox := { top := height, left := width, bottom := -1, right := -1 },
    contentFound := false }

/-- The four samples the crop loop stores for one destination pixel. -/
def storePixel (buf : List Nat) (i : Nat) (p : ColorRGBA) : List Nat :=
  (((buf.set i p.r).set (i + 1) p.g).set (i + 2) p.b).set (i + 3) p.a

/-- Invariant of the crop loop after `n` destination pixels: the buffer keeps its
size, and every destination pixel numbered below `n` holds its source pixel. -/
def TrimInv (pixels : List Nat) (width channels l t W H n : Nat) (buf : List Nat) : Prop :=
  buf.length = W * H * 4 ∧
  ∀ x y, x < W → y * W + x < n →
    pixelAt buf W 4 x y = pixelAt pixels width channels (l + x) (t + y)

/-- The empty box returned when no content is found. -/
def emptyBox : BoundingBox := { top := 0, left := 0, bottom := -1, right := -1 }

/-- A box is the tight bounding box of the content: it encloses every content
pixel and each of its sides is attained by a content pixel, that is,
`left`/`right` are the minimum/maximum `x` and `top`/`bottom` the
minimum/maximum `y` over the content pixels. -/
structure IsTightBox (pixels : List Nat) (width height channels : Nat) (bg : ColorRGBA)
    (bbox : BoundingBox) : Prop where
  encl : ∀ x y, IsContent pixels width height channels bg x y →
    bbox.left ≤ x ∧ (x : Int) ≤ bbox.right ∧ bbox.top ≤ y ∧ (y : Int) ≤ bbox.bottom
  left : ∃ x y, IsContent pixels width height channels bg x y ∧ bbox.left = x
  right : ∃ x y, IsContent pixels width height channels bg x y ∧ bbox.right = x
  top : ∃ x y, IsContent pixels width height channels bg x y ∧ bbox.top = y
  bottom : ∃ x y, IsContent pixels width height channels bg x y ∧ bbox.bottom = y

/-- Invariant of the background scan, relative to the list `L` of counted pixels
visited so far: the map holds the occurrence counts, `maxCount` bounds them, and
once a pixel has been counted the leader is the colour that was first to reach
`maxCount` occurrences. -/
structure BgInv (L : List ColorRGBA) (s : BgScan) : Prop where
  counts : ∀ k, mapGet s.colorCounts k = L.count k
  maxle : ∀ k, L.count k ≤ s.maxCount
  start : L = [] → s.maxCount = 0 ∧ s.backgroundColor = white
  leader : L ≠ [] → 0 < s.maxCount ∧ L.count s.backgroundColor = s.maxCount ∧
    ∃ n, n ≤ L.length ∧ (L.take n).count s.backgroundColor = s.maxCount ∧
      ∀ k, k ≠ s.backgroundColor → (L.take n).count k < s.maxCount

/-- The counted pixels that precede pixel `(x, y)` in scan order. -/
def scannedBefore (pixels : List Nat) (width channels y x : Nat) : List ColorRGBA :=
  ((List.range y).flatMap (imageRow pixels width channels) ++
    (List.range x).map (fun x' => pixelAt pixels width channels x' y)).filter isCounted

/-- Initial state of the background scan. -/
def bgInit : BgScan := { colorCounts := [], maxCount := 0, backgroundColor := white }

/-- A 4x1 three-channel image with the colours `A B B A`, where `A = (1,2,3)` and
`B = (4,5,6)`. -/
def tieImage : List Nat := [1, 2, 3, 4, 5, 6, 4, 5, 6, 1, 2, 3]

/-- The scenario image: 10 x 10 pixels with three channels, a red 8 x 8 square at
rows and columns 1 to 8, and white elsewhere. -/
def scenarioImage : List Nat :=
  (List.range 10).flatMap (fun y => (List.range 10).flatMap (fun x =>
    if 1 ≤ x ∧ x ≤ 8 ∧ 1 ≤ y ∧ y ≤ 8 then [255, 0, 0] else [255, 255, 255]))

/-- Red with full alpha. -/
def red : ColorRGBA := { r := 255, g := 0, b := 0, a := 255 }

/-! ## `resizeImage` and the batch loop of `main` -/

/-- Results of `resizeImage`: the returned pointer (`none` is `nullptr`) and the
two output parameters. -/
structure ResizeResult where
  pixels : Option (List Nat)
  outWidth : Int
  outHeight : Int

/-- Function `resizeImage(inputPixels, inputWidth, inputHeight, outWidth, outHeight)`.
The argument `alloc` stands for `new (std::nothrow) unsigned char[n]` and
`stbir_resize_uint8` for the library resampler, which yields `none` when it reports
failure and otherwise the filled output buffer. -/
def resizeImage (alloc : Nat → Option (List Nat))
    (stbir_resize_uint8 : List Nat → Int → Int → List Nat → Int → Int → Option (List Nat))
    (inputPixels : List Nat) (inputWidth inputHeight : Int) : ResizeResult :=
  let outWidth := (resizeImageDims inputWidth inputHeight).1
  let outHeight := (resizeImageDims inputWidth inputHeight).2
  let resizedSize : Nat := outWidth.toNat * outHeight.toNat * 4
  match alloc resizedSize with
  | none => { pixels := none, outWidth := outWidth, outHeight := outHeight }
  | some resizedPixels =>
    match stbir_resize_uint8 inputPixels inputWidth inputHeight resizedPixels
        outWidth outHeight with
    | none => { pixels := none, outWidth := outWidth, outHeight := outHeight }
    | some filled => { pixels := some filled, outWidth := outWidth, outHeight := outHeight }

/-- An image as handed over by `stbi_load`: samples, width, height, channel count. -/
structure Decoded where
  pixels : List Nat
  width : Nat
  height : Nat
  channels : Nat

/-- Behaviour of the external services during the processing of one input file:
the decoder (`none` is a null pointer), the two allocations, the resampler and the
PNG writer. -/
structure Services where
  stbi_load : Option Decoded
  allocTrimmed : Nat → Option (List Nat)
  allocResized : Nat → Option (List Nat)
  stbir_resize_uint8 : List Nat → Int → Int → List Nat → Int → Int → Option (List Nat)
  stbi_write_png : Int → Int → List Nat → Bool

/-- The two counters of `main`. -/
structure Counts where
  successCount : Int
  failCount : Int
  deriving DecidableEq, Repr

/-- One iteration of the loop over `inputFiles` in `main`, steps 3a to 3e. -/
def processFile (sv : Services) (c : Counts) : Option Counts :=
  match sv.stbi_load with
  | none => some { c with failCount := c.failCount + 1 }
  | some img =>
    if img.channels < 3 then
      some { c with failCount := c.failCount + 1 }
    else do
      let bgColor ← findBackgroundColor img.pixels img.width img.height img.channels
      let bbox ← findContentBoundingBox img.pixels img.width img.height img.channels bgColor
      if !bbox.isValid then
        pure { c with failCount := c.failCount + 1 }
      else
        let t ← trimImage sv.allocTrimmed img.pixels img.width img.channels bbox
        match t.pixels with
        | none => pure { c with failCount := c.failCount + 1 }
        | some trimmedPixels =>
          let r := resizeImage sv.allocResized sv.stbir_resize_uint8 trimmedPixels
            t.outWidth t.outHeight
          match r.pixels with
          | none => pure { c with failCount := c.failCount + 1 }
          | some resizedPixels =>
            if sv.stbi_write_png r.outWidth r.outHeight resizedPixels then
              pure { c with successCount := c.successCount + 1 }
            else
              pure { c with failCount := c.failCount + 1 }

/-- The loop `for (const auto& inputPathStr : inputFiles)` of `main`, started with
both counters at `0`; every input comes with the behaviour of the services on it. -/
def mainLoop (inputs : List Services) : Option Counts :=
  inputs.foldlM (fun c sv => processFile sv c) { successCount := 0, failCount := 0 }

/-- Contract of the allocator: a successful allocation of `n` samples has `n` samples. -/
def AllocOk (alloc : Nat → Option (List Nat)) : Prop :=
  ∀ n buf, alloc n = some buf → buf.length = n

/-- Contract of the external services: the decoder hands over `width * height * channels`
samples with at most four channels, and the allocation in `trimImage` is well behaved. -/
def ServicesOk (sv : Services) : Prop :=
  (∀ img, sv.stbi_load = some img →
    WellFormed img.pixels img.width img.height img.channels ∧ img.channels ≤ 4) ∧
  AllocOk sv.allocTrimmed

/-- An image is a success: decoding succeeds, the buffer has at least three channels,
the detected box is valid, `trimImage` and `resizeImage` return buffers and the PNG
write succeeds. -/
def Succeeds (sv : Services) : Prop :=
  ∃ img bg bbox t trimmed resized,
    sv.stbi_load = some img ∧ 3 ≤ img.channels ∧
    findBackgroundColor img.pixels img.width img.height img.channels = some bg ∧
    findContentBoundingBox img.pixels img.width img.height img.channels bg = some bbox ∧
    bbox.isValid = true ∧
    trimImage sv.allocTrimmed img.pixels img.width img.channels bbox = some t ∧
    t.pixels = some trimmed ∧
    (resizeImage sv.allocResized sv.stbir_resize_uint8 trimmed t.outWidth t.outHeight).pixels
      = some resized ∧
    sv.stbi_write_png
      (resizeImage sv.allocResized sv.stbir_resize_uint8 trimmed t.outWidth t.outHeight).outWidth
      (resizeImage sv.allocResized sv.stbir_resize_uint8 trimmed t.outWidth t.outHeight).outHeight
      resized = true

/-- The 4-channel expansion of a 3-channel buffer: the same `R, G, B` samples with
an alpha sample `255` after each pixel. -/
def expandAlpha : List Nat → List Nat
  | r :: g :: b :: rest => r :: g :: b :: 255 :: expandAlpha rest
  | _ => []

/-- Services for a run in which every external step succeeds on the given image; the
resampler fills the output with zeros. -/
def servicesFor (img : Decoded) : Services :=
  { stbi_load := some img
    allocTrimmed := allocZero
    allocResized := allocZero
    stbir_resize_uint8 := fun _ _ _ out _ _ => some out
    stbi_write_png := fun _ _ _ => true }

/-! ## Basic facts about accesses and loops -/

theorem readByte_natCast (pixels : List Nat) (n : Nat) :
    readByte pixels (n : Int) = pixels[n]? := by
  simp [readByte]

theorem readByte_natCast_add (pixels : List Nat) (n k : Nat) :
    readByte pixels ((n : Int) + (k : Int)) = pixels[n + k]? := by
  rw [← Int.natCast_add, readByte_natCast]

theorem getElem?_eq_sample (pixels : List Nat) (i : Nat) (h : i < pixels.length) :
    pixels[i]? = some (sample pixels i) := by
  simp [sample, List.getD, List.getElem?_eq_getElem h]

theorem forLoop_zero {σ : Type} (body : Nat → σ → Option σ) (s : σ) :
    forLoop 0 body s = some s := by
  simp [forLoop]

theorem forLoop_succ {σ : Type} (n : Nat) (body : Nat → σ → Option σ) (s : σ) :
    forLoop (n + 1) body s = (forLoop n body s).bind (body n) := by
  simp only [forLoop, List.range_succ, List.foldlM_append]
  cases h : List.foldlM (fun st i => body i st) s (List.range n) with
  | none => rfl
  | some st =>
    show ((List.foldlM (fun st i => body i st) st [n]) : Option σ) = body n st
    simp [List.foldlM]

/-- Loop rule: an invariant that holds initially and is carried by every
iteration, each of which terminates normally, holds of the final state. -/
theorem forLoop_inv {σ : Type} (n : Nat) (body : Nat → σ → Option σ)
    (Inv : Nat → σ → Prop) (s : σ) (h0 : Inv 0 s)
    (hstep : ∀ i st, i < n → Inv i st → ∃ st', body i st = some st' ∧ Inv (i + 1) st') :
    ∃ st', forLoop n body s = some st' ∧ Inv n st' := by
  induction n with
  | zero => exact ⟨s, forLoop_zero body s, h0⟩
  | succ n ih =>
    obtain ⟨st1, h1, hi1⟩ := ih (fun i st hi => hstep i st (Nat.lt_succ_of_lt hi))
    obtain ⟨st2, h2, hi2⟩ := hstep n st1 (Nat.lt_succ_self n) hi1
    exact ⟨st2, by rw [forLoop_succ, h1]; exact h2, hi2⟩

/-- Offsets of the samples of an in-range pixel lie inside a well-formed buffer. -/
theorem sample_index_lt (width height channels x y k : Nat) (hx : x < width)
    (hy : y < height) (hk : k < channels) :
    (y * width + x) * channels + k < width * height * channels := by
  have h1 : y * width + x + 1 ≤ width * height := by
    have : (y + 1) * width ≤ height * width := Nat.mul_le_mul_right width hy
    have e : (y + 1) * width = y * width + width := Nat.succ_mul y width
    have c : height * width = width * height := Nat.mul_comm _ _
    omega
  have h2 : (y * width + x + 1) * channels ≤ width * height * channels :=
    Nat.mul_le_mul_right channels h1
  have e2 : (y * width + x + 1) * channels = (y * width + x) * channels + channels :=
    Nat.succ_mul _ _
  omega

/-- On a well-formed buffer the pixel load at an in-range pixel succeeds and yields
the colour of that pixel. -/
theorem loadColor_eq (pixels : List Nat) (width height channels x y : Nat)
    (hwf : WellFormed pixels width height channels) (hc : channels = 3 ∨ channels = 4)
    (hx : x < width) (hy : y < height) :
    loadColor pixels (((y * width + x) * channels : Nat) : Int) channels
      = some (pixelAt pixels width channels x y) := by
  have l0 := sample_index_lt width height channels x y 0 hx hy (by omega)
  have l1 := sample_index_lt width height channels x y 1 hx hy (by omega)
  have l2 := sample_index_lt width height channels x y 2 hx hy (by omega)
  unfold WellFormed at hwf
  have r0 := getElem?_eq_sample pixels _ (hwf ▸ l0)
  have r1 := getElem?_eq_sample pixels _ (hwf ▸ l1)
  have r2 := getElem?_eq_sample pixels _ (hwf ▸ l2)
  have c1 := readByte_natCast_add pixels ((y * width + x) * channels) 1
  have c2 := readByte_natCast_add pixels ((y * width + x) * channels) 2
  have c3 := readByte_natCast_add pixels ((y * width + x) * channels) 3
  simp only [Nat.cast_ofNat, Nat.cast_one] at c1 c2 c3
  rcases hc with hc | hc
  · subst hc
    simp only [loadColor, readByte_natCast, c1, c2, Nat.add_zero] at r0 r1 r2 ⊢
    rw [r0, r1, r2]
    simp [pixelAt]
  · subst hc
    have l3 := sample_index_lt width height 4 x y 3 hx hy (by omega)
    have r3 := getElem?_eq_sample pixels _ (hwf ▸ l3)
    simp only [loadColor, readByte_natCast, c1, c2, c3, Nat.add_zero] at r0 r1 r2 r3 ⊢
    rw [r0, r1, r2, r3]
    simp [pixelAt]

/-! ## The bounding-box scan -/

theorem BoxInv.congr {pixels : List Nat} {width height channels : Nat} {bg : ColorRGBA}
    {P Q : Nat → Nat → Prop} {s : BoxScan} (hPQ : ∀ x y, P x y ↔ Q x y)
    (h : BoxInv pixels width height channels bg P s) :
    BoxInv pixels width height channels bg Q s := by
  have e : P = Q := by
    funext x y
    exact propext (hPQ x y)
  exact e ▸ h

/-- The loop body on a background pixel leaves the state alone. -/
theorem boxBody_background (pixels : List Nat) (width height channels : Nat)
    (bg : ColorRGBA) (x y : Nat) (s : BoxScan)
    (hwf : WellFormed pixels width height channels) (hc : channels = 3 ∨ channels = 4)
    (hx : x < width) (hy : y < height)
    (hbg : IsBackground channels bg (pixelAt pixels width channels x y)) :
    boxBody pixels width channels bg y x s = some s := by
  unfold boxBody
  rw [loadColor_eq pixels width height channels x y hwf hc hx hy]
  have hb : (if channels = 4 ∧ (pixelAt pixels width channels x y).a < 10 then true
      else decide (pixelAt pixels width channels x y = bg)) = true := by
    unfold IsBackground at hbg
    split_ifs with h4
    · rfl
    · exact decide_eq_true (by tauto)
  simp only [Option.some_bind, Option.bind_eq_bind, hb]
  rfl

/-- The loop body on a content pixel extends the box to cover it. -/
theorem boxBody_content (pixels : List Nat) (width height channels : Nat)
    (bg : ColorRGBA) (x y : Nat) (s : BoxScan)
    (hwf : WellFormed pixels width height channels) (hc : channels = 3 ∨ channels = 4)
    (hx : x < width) (hy : y < height)
    (hbg : ¬ IsBackground channels bg (pixelAt pixels width channels x y)) :
    boxBody pixels width channels bg y x s =
      some { bbox := { top := min s.bbox.top y, left := min s.bbox.left x,
                       bottom := max s.bbox.bottom y, right := max s.bbox.right x },
             contentFound := true } := by
  unfold boxBody
  rw [loadColor_eq pixels width height channels x y hwf hc hx hy]
  have hb : (if channels = 4 ∧ (pixelAt pixels width channels x y).a < 10 then true
      else decide (pixelAt pixels width channels x y = bg)) = false := by
    unfold IsBackground at hbg
    split_ifs with h4
    · exact absurd (Or.inr h4) hbg
    · exact decide_eq_false (by tauto)
  simp only [Option.some_bind, Option.bind_eq_bind, hb]
  rcases s with ⟨⟨t, l, b, r⟩, cf⟩
  simp only [Bool.not_false, if_true, Option.pure_def, Option.some.injEq, BoxScan.mk.injEq,
    and_true, min_def, max_def, gt_iff_lt]
  split_ifs <;> (try dsimp only at *) <;> simp only [BoundingBox.mk.injEq] <;>
    refine ⟨?_, ?_, ?_, ?_⟩ <;> first | exact True.intro | omega

/-- One iteration of the inner loop carries the scan invariant to the visited set
extended by the current pixel. -/
theorem boxInv_step {pixels : List Nat} {width height channels : Nat} {bg : ColorRGBA}
    {P : Nat → Nat → Prop} {s : BoxScan} (x y : Nat)
    (hwf : WellFormed pixels width height channels) (hc : channels = 3 ∨ channels = 4)
    (hx : x < width) (hy : y < height)
    (h : BoxInv pixels width height channels bg P s) :
    ∃ s', boxBody pixels width channels bg y x s = some s' ∧
      BoxInv pixels width height channels bg (fun x' y' => P x' y' ∨ (x' = x ∧ y' = y)) s' := by
  by_cases hbg : IsBackground channels bg (pixelAt pixels width channels x y)
  · refine ⟨s, boxBody_background pixels width height channels bg x y s hwf hc hx hy hbg, ?_⟩
    have hnot : ∀ x' y', (x' = x ∧ y' = y) →
        ¬ IsContent pixels width height channels bg x' y' := by
      rintro x' y' ⟨rfl, rfl⟩ hcont
      exact hcont.2.2 hbg
    refine ⟨?_, ?_, ?_, ?_, ?_, ?_⟩
    · rw [h.found]
      constructor
      · rintro ⟨x', y', hp, hcont⟩
        exact ⟨x', y', Or.inl hp, hcont⟩
      · rintro ⟨x', y', hp | hp, hcont⟩
        · exact ⟨x', y', hp, hcont⟩
        · exact absurd hcont (hnot x' y' hp)
    · rintro x' y' (hp | hp) hcont
      · exact h.encl x' y' hp hcont
      · exact absurd hcont (hnot x' y' hp)
    · exact h.top.imp id (fun ⟨x', y', hp, hcont, e⟩ => ⟨x', y', Or.inl hp, hcont, e⟩)
    · exact h.left.imp id (fun ⟨x', y', hp, hcont, e⟩ => ⟨x', y', Or.inl hp, hcont, e⟩)
    · exact h.bottom.imp id (fun ⟨x', y', hp, hcont, e⟩ => ⟨x', y', Or.inl hp, hcont, e⟩)
    · exact h.right.imp id (fun ⟨x', y', hp, hcont, e⟩ => ⟨x', y', Or.inl hp, hcont, e⟩)
  · refine ⟨_, boxBody_content pixels width height channels bg x y s hwf hc hx hy hbg, ?_⟩
    have hnew : IsContent pixels width height channels bg x y := ⟨hx, hy, hbg⟩
    refine ⟨?_, ?_, ?_, ?_, ?_, ?_⟩
    · simp only [true_iff]
      exact ⟨x, y, Or.inr ⟨rfl, rfl⟩, hnew⟩
    · rintro x' y' (hp | ⟨rfl, rfl⟩) hcont
      · have := h.encl x' y' hp hcont
        dsimp only
        omega
      · dsimp only
        omega
    · dsimp only
      rcases le_total s.bbox.top (y : Int) with hle | hle
      · rw [min_eq_left hle]
        exact h.top.imp id (fun ⟨x', y', hp, hcont, e⟩ => ⟨x', y', Or.inl hp, hcont, e⟩)
      · rw [min_eq_right hle]
        exact Or.inr ⟨x, y, Or.inr ⟨rfl, rfl⟩, hnew, rfl⟩
    · dsimp only
      rcases le_total s.bbox.left (x : Int) with hle | hle
      · rw [min_eq_left hle]
        exact h.left.imp id (fun ⟨x', y', hp, hcont, e⟩ => ⟨x', y', Or.inl hp, hcont, e⟩)
      · rw [min_eq_right hle]
        exact Or.inr ⟨x, y, Or.inr ⟨rfl, rfl⟩, hnew, rfl⟩
    · dsimp only
      rcases le_total s.bbox.bottom (y : Int) with hle | hle
      · rw [max_eq_right hle]
        exact Or.inr ⟨x, y, Or.inr ⟨rfl, rfl⟩, hnew, rfl⟩
      · rw [max_eq_left hle]
        exact h.bottom.imp id (fun ⟨x', y', hp, hcont, e⟩ => ⟨x', y', Or.inl hp, hcont, e⟩)
    · dsimp only
      rcases le_total s.bbox.right (x : Int) with hle | hle
      · rw [max_eq_right hle]
        exact Or.inr ⟨x, y, Or.inr ⟨rfl, rfl⟩, hnew, rfl⟩
      · rw [max_eq_left hle]
        exact h.right.imp id (fun ⟨x', y', hp, hcont, e⟩ => ⟨x', y', Or.inl hp, hcont, e⟩)

/-- On a well-formed buffer the two nested loops of `findContentBoundingBox` run to
completion and the final state satisfies the scan invariant for the whole image. -/
theorem boxScan_total (pixels : List Nat) (width height channels : Nat) (bg : ColorRGBA)
    (hwf : WellFormed pixels width height channels) (hc : channels = 3 ∨ channels = 4) :
    ∃ s, forLoop height
        (fun y s => forLoop width (boxBody pixels width channels bg y) s)
        (boxInit width height) = some s ∧
      BoxInv pixels width height channels bg (fun x y => x < width ∧ y < height) s := by
  have outer := forLoop_inv height
    (fun y s => forLoop width (boxBody pixels width channels bg y) s)
    (fun y s => BoxInv pixels width height channels bg (fun x' y' => x' < width ∧ y' < y) s)
    (boxInit width height)
    (by
      refine ⟨?_, ?_, Or.inl rfl, Or.inl rfl, Or.inl rfl, Or.inl rfl⟩
      · simp [boxInit]
      · rintro x y ⟨_, hlt⟩
        exact absurd hlt (Nat.not_lt_zero y))
    (by
      intro y s hy hinv
      have inner := forLoop_inv width (boxBody pixels width channels bg y)
        (fun x s => BoxInv pixels width height channels bg
          (fun x' y' => (x' < width ∧ y' < y) ∨ (y' = y ∧ x' < x)) s) s
        (hinv.congr (by intro x' y'; omega))
        (by
          intro x st hx hst
          obtain ⟨st', e, hst'⟩ := boxInv_step x y hwf hc hx hy hst
          exact ⟨st', e, hst'.congr (by intro x' y'; omega)⟩)
      obtain ⟨st', e, hst'⟩ := inner
      exact ⟨st', e, hst'.congr (by intro x' y'; omega)⟩)
  exact outer

/-! ## The crop loop -/

theorem readByte_pixel (pixels : List Nat) (width height channels x y k : Nat)
    (hwf : WellFormed pixels width height channels) (hx : x < width) (hy : y < height)
    (hk : k < channels) :
    readByte pixels ((((y * width + x) * channels : Nat) : Int) + (k : Int))
      = some (sample pixels ((y * width + x) * channels + k)) := by
  rw [readByte_natCast_add]
  apply getElem?_eq_sample
  rw [hwf]
  exact sample_index_lt width height channels x y k hx hy hk

theorem writeByte_natCast_add (buf : List Nat) (n k v : Nat) (h : n + k < buf.length) :
    writeByte buf ((n : Int) + (k : Int)) v = some (buf.set (n + k) v) := by
  have e : (n : Int) + (k : Int) = ((n + k : Nat) : Int) := by push_cast; rfl
  rw [e]
  unfold writeByte
  have h1 : (0 : Int) ≤ ((n + k : Nat) : Int) := Int.ofNat_nonneg _
  have h2 : ((n + k : Nat) : Int).toNat = n + k := Int.toNat_ofNat _
  rw [h2, if_pos ⟨h1, h⟩]

theorem sample_set (buf : List Nat) (i j v : Nat) :
    sample (buf.set i v) j = if i = j ∧ i < buf.length then v else sample buf j := by
  unfold sample
  rw [List.getD_eq_getElem?_getD, List.getD_eq_getElem?_getD, List.getElem?_set]
  by_cases hij : i = j
  · subst hij
    by_cases hlt : i < buf.length
    · simp [hlt]
    · simp [hlt, List.getElem?_eq_none (Nat.le_of_not_lt hlt)]
  · simp [hij]

theorem storePixel_length (buf : List Nat) (i : Nat) (p : ColorRGBA) :
    (storePixel buf i p).length = buf.length := by
  simp [storePixel]

theorem sample_storePixel_of_lt (buf : List Nat) (i j : Nat) (p : ColorRGBA) (h : j < i) :
    sample (storePixel buf i p) j = sample buf j := by
  simp only [storePixel, sample_set]
  have h0 : ¬ (i + 3 = j ∧ i + 3 < (((buf.set i p.r).set (i + 1) p.g).set (i + 2) p.b).length) := by
    omega
  have h1 : ¬ (i + 2 = j ∧ i + 2 < ((buf.set i p.r).set (i + 1) p.g).length) := by omega
  have h2 : ¬ (i + 1 = j ∧ i + 1 < (buf.set i p.r).length) := by omega
  have h3 : ¬ (i = j ∧ i < buf.length) := by omega
  simp only [h0, h1, h2, h3, if_false]

theorem sample_storePixel_self (buf : List Nat) (i : Nat) (p : ColorRGBA)
    (h : i + 3 < buf.length) :
    sample (storePixel buf i p) i = p.r ∧ sample (storePixel buf i p) (i + 1) = p.g ∧
    sample (storePixel buf i p) (i + 2) = p.b ∧ sample (storePixel buf i p) (i + 3) = p.a := by
  simp only [storePixel, sample_set, List.length_set]
  refine ⟨?_, ?_, ?_, ?_⟩
  · have a3 : ¬ (i + 3 = i ∧ i + 3 < buf.length) := by omega
    have a2 : ¬ (i + 2 = i ∧ i + 2 < buf.length) := by omega
    have a1 : ¬ (i + 1 = i ∧ i + 1 < buf.length) := by omega
    have a0 : (i = i ∧ i < buf.length) := ⟨rfl, by omega⟩
    simp only [a3, a2, a1, a0, and_self, if_false, if_true]
  · have a3 : ¬ (i + 3 = i + 1 ∧ i + 3 < buf.length) := by omega
    have a2 : ¬ (i + 2 = i + 1 ∧ i + 2 < buf.length) := by omega
    have a1 : (i + 1 = i + 1 ∧ i + 1 < buf.length) := ⟨rfl, by omega⟩
    simp only [a3, a2, a1, and_self, if_false, if_true]
  · have a3 : ¬ (i + 3 = i + 2 ∧ i + 3 < buf.length) := by omega
    have a2 : (i + 2 = i + 2 ∧ i + 2 < buf.length) := ⟨rfl, by omega⟩
    simp only [a3, a2, and_self, if_false, if_true]
  · have a3 : (i + 3 = i + 3 ∧ i + 3 < buf.length) := ⟨rfl, h⟩
    simp only [a3, and_self, if_true]

/-- One iteration of the inner crop loop: it reads the source pixel
`(left + x, top + y)` and stores it as the destination pixel number `y * W + x`. -/
theorem trimBody_eq (pixels : List Nat) (width height channels : Nat) (bbox : BoundingBox)
    (l t W x y : Nat) (buf : List Nat)
    (hl : bbox.left = l) (ht : bbox.top = t)
    (hwf : WellFormed pixels width height channels) (hc : channels = 3 ∨ channels = 4)
    (hsx : l + x < width) (hsy : t + y < height)
    (hlen : (y * W + x) * 4 + 3 < buf.length) :
    trimBody pixels width channels bbox (W : Int) y x buf
      = some (storePixel buf ((y * W + x) * 4) (pixelAt pixels width channels (l + x) (t + y))) := by
  have esrc : ((bbox.top + (y : Int)) * (width : Int) + (bbox.left + (x : Int))) * (channels : Int)
      = ((((t + y) * width + (l + x)) * channels : Nat) : Int) := by
    rw [hl, ht]; push_cast; ring
  have edst : ((y : Int) * (W : Int) + (x : Int)) * 4 = (((y * W + x) * 4 : Nat) : Int) := by
    push_cast; ring
  have r0 := readByte_pixel pixels width height channels (l + x) (t + y) 0 hwf hsx hsy
    (by omega)
  have r1 := readByte_pixel pixels width height channels (l + x) (t + y) 1 hwf hsx hsy
    (by omega)
  have r2 := readByte_pixel pixels width height channels (l + x) (t + y) 2 hwf hsx hsy
    (by omega)
  have w0 := fun (b : List Nat) (v : Nat) (hb : (y * W + x) * 4 + 0 < b.length) =>
    writeByte_natCast_add b ((y * W + x) * 4) 0 v hb
  have w1 := fun (b : List Nat) (v : Nat) (hb : (y * W + x) * 4 + 1 < b.length) =>
    writeByte_natCast_add b ((y * W + x) * 4) 1 v hb
  have w2 := fun (b : List Nat) (v : Nat) (hb : (y * W + x) * 4 + 2 < b.length) =>
    writeByte_natCast_add b ((y * W + x) * 4) 2 v hb
  have w3 := fun (b : List Nat) (v : Nat) (hb : (y * W + x) * 4 + 3 < b.length) =>
    writeByte_natCast_add b ((y * W + x) * 4) 3 v hb
  simp only [Nat.cast_zero, Nat.cast_one, Nat.cast_ofNat, add_zero, Nat.add_zero]
    at r0 r1 r2 w0 w1 w2 w3
  unfold trimBody
  simp only [esrc, edst, Option.bind_eq_bind]
  rw [r0, Option.some_bind, w0 _ _ (by omega), Option.some_bind, r1, Option.some_bind,
    w1 _ _ (by simp only [List.length_set]; omega), Option.some_bind, r2, Option.some_bind,
    w2 _ _ (by simp only [List.length_set]; omega), Option.some_bind]
  rcases hc with hc | hc
  · subst hc
    simp only [show ¬ (3 = 4) by decide, if_false, Option.some_bind]
    rw [w3 _ _ (by simp only [List.length_set]; omega)]
    simp [storePixel, pixelAt]
  · subst hc
    have r3 := readByte_pixel pixels width height 4 (l + x) (t + y) 3 hwf hsx hsy (by omega)
    simp only [Nat.cast_ofNat] at r3
    simp only [if_true, r3, Option.some_bind]
    rw [w3 _ _ (by simp only [List.length_set]; omega)]
    simp [storePixel, pixelAt]

/-- Row-major pixel numbering is injective on in-range columns. -/
theorem pixel_number_inj (W x y x' y' : Nat) (hx : x < W) (hx' : x' < W)
    (h : y' * W + x' = y * W + x) : x' = x ∧ y' = y := by
  have hy : y' = y := by
    rcases Nat.lt_trichotomy y' y with hlt | heq | hgt
    · have h1 : (y' + 1) * W ≤ y * W := Nat.mul_le_mul_right W hlt
      have h2 : (y' + 1) * W = y' * W + W := Nat.succ_mul y' W
      omega
    · exact heq
    · have h1 : (y + 1) * W ≤ y' * W := Nat.mul_le_mul_right W hgt
      have h2 : (y + 1) * W = y * W + W := Nat.succ_mul y W
      omega
  subst hy
  exact ⟨by omega, rfl⟩

theorem pixelAt_four (buf : List Nat) (W x y : Nat) :
    pixelAt buf W 4 x y =
      { r := sample buf ((y * W + x) * 4), g := sample buf ((y * W + x) * 4 + 1),
        b := sample buf ((y * W + x) * 4 + 2), a := sample buf ((y * W + x) * 4 + 3) } := by
  simp only [pixelAt, if_true]

theorem trimInv_step {pixels : List Nat} {width channels l t W H : Nat} {buf : List Nat}
    (x y : Nat) (hx : x < W) (hy : y < H)
    (h : TrimInv pixels width channels l t W H (y * W + x) buf) :
    TrimInv pixels width channels l t W H (y * W + x + 1)
      (storePixel buf ((y * W + x) * 4) (pixelAt pixels width channels (l + x) (t + y))) := by
  obtain ⟨hlen, hpix⟩ := h
  refine ⟨by rw [storePixel_length, hlen], ?_⟩
  intro x' y' hx' hn
  by_cases hlt : y' * W + x' < y * W + x
  · rw [← hpix x' y' hx' hlt, pixelAt_four, pixelAt_four]
    rw [sample_storePixel_of_lt _ _ _ _ (by omega), sample_storePixel_of_lt _ _ _ _ (by omega),
      sample_storePixel_of_lt _ _ _ _ (by omega), sample_storePixel_of_lt _ _ _ _ (by omega)]
  · have heq : y' * W + x' = y * W + x := by omega
    obtain ⟨rfl, rfl⟩ := pixel_number_inj W x y x' y' hx hx' heq
    have hin : (y' * W + x') * 4 + 3 < buf.length := by
      rw [hlen]
      exact sample_index_lt W H 4 x' y' 3 hx hy (by omega)
    obtain ⟨e0, e1, e2, e3⟩ := sample_storePixel_self buf ((y' * W + x') * 4)
      (pixelAt pixels width channels (l + x') (t + y')) hin
    rw [pixelAt_four, e0, e1, e2, e3]

/-- The two nested loops of `trimImage` run to completion on an in-bounds box and
leave every destination pixel equal to its source pixel. -/
theorem trimLoops_total (pixels : List Nat) (width height channels : Nat) (bbox : BoundingBox)
    (l t W H : Nat) (buf : List Nat)
    (hl : bbox.left = l) (ht : bbox.top = t)
    (hwf : WellFormed pixels width height channels) (hc : channels = 3 ∨ channels = 4)
    (hW : l + W ≤ width) (hH : t + H ≤ height) (hbuf : buf.length = W * H * 4) :
    ∃ out, forLoop H (fun y b => forLoop W
        (trimBody pixels width channels bbox (W : Int) y) b) buf = some out ∧
      TrimInv pixels width channels l t W H (H * W) out := by
  refine forLoop_inv H _ (fun y b => TrimInv pixels width channels l t W H (y * W) b) buf
    ⟨hbuf, fun x y _ hlt => by omega⟩ ?_
  intro y b hy hinv
  have inner := forLoop_inv W (trimBody pixels width channels bbox (W : Int) y)
    (fun x b => TrimInv pixels width channels l t W H (y * W + x) b) b hinv
    (by
      intro x st hx hst
      have hin : (y * W + x) * 4 + 3 < st.length := by
        rw [hst.1]
        exact sample_index_lt W H 4 x y 3 hx hy (by omega)
      exact ⟨_, trimBody_eq pixels width height channels bbox l t W x y st hl ht hwf hc
        (by omega) (by omega) hin, trimInv_step x y hx hy hst⟩)
  obtain ⟨st', e, hst'⟩ := inner
  refine ⟨st', e, ?_⟩
  show TrimInv pixels width channels l t W H ((y + 1) * W) st'
  rw [Nat.succ_mul]
  exact hst'

theorem width_natCast (t l b r : Nat) (hlr : l ≤ r) :
    (BoundingBox.mk t l b r).width = ((r - l + 1 : Nat) : Int) := by
  unfold BoundingBox.width
  dsimp only
  rw [if_pos (by omega)]
  omega

theorem height_natCast (t l b r : Nat) (htb : t ≤ b) :
    (BoundingBox.mk t l b r).height = ((b - t + 1 : Nat) : Int) := by
  unfold BoundingBox.height
  dsimp only
  rw [if_pos (by omega)]
  omega

/-- Crop of a box with natural-number sides lying inside a well-formed buffer. -/
theorem trimImage_nat (alloc : Nat → Option (List Nat)) (pixels : List Nat)
    (width height channels l t r b : Nat) (buf0 : List Nat)
    (hwf : WellFormed pixels width height channels) (hc : channels = 3 ∨ channels = 4)
    (hlr : l ≤ r) (hr : r < width) (htb : t ≤ b) (hb : b < height)
    (halloc : alloc ((r - l + 1) * (b - t + 1) * 4) = some buf0)
    (hbuf : buf0.length = (r - l + 1) * (b - t + 1) * 4) :
    ∃ out, trimImage alloc pixels width channels (BoundingBox.mk t l b r)
        = some { pixels := some out, outWidth := ((r - l + 1 : Nat) : Int),
                 outHeight := ((b - t + 1 : Nat) : Int) } ∧
      WellFormed out (r - l + 1) (b - t + 1) 4 ∧
      ∀ x y, x < r - l + 1 → y < b - t + 1 →
        pixelAt out (r - l + 1) 4 x y = pixelAt pixels width channels (l + x) (t + y) := by
  obtain ⟨out, hloop, hlen, hpix⟩ := trimLoops_total pixels width height channels
    (BoundingBox.mk t l b r) l t (r - l + 1) (b - t + 1) buf0 rfl rfl hwf hc
    (by omega) (by omega) hbuf
  refine ⟨out, ?_, hlen, ?_⟩
  · unfold trimImage
    have hv : (BoundingBox.mk t l b r).isValid = true := by
      unfold BoundingBox.isValid
      rw [width_natCast t l b r hlr, height_natCast t l b r htb]
      simp
    simp only [hv, Bool.not_true, width_natCast t l b r hlr, height_natCast t l b r htb,
      Int.toNat_ofNat, halloc, hloop]
    rfl
  · intro x y hx hy
    apply hpix x y hx
    have h1 : (y + 1) * (r - l + 1) ≤ (b - t + 1) * (r - l + 1) :=
      Nat.mul_le_mul_right _ hy
    have h2 : (y + 1) * (r - l + 1) = y * (r - l + 1) + (r - l + 1) := Nat.succ_mul _ _
    omega

/-- Characterisation of `findContentBoundingBox` on a well-formed buffer: it
returns, and the result is the empty box when there is no content and the tight
box of the content otherwise. -/
theorem findContentBoundingBox_spec (pixels : List Nat) (width height channels : Nat)
    (bg : ColorRGBA) (hwf : WellFormed pixels width height channels)
    (hc : channels = 3 ∨ channels = 4) :
    ∃ bbox, findContentBoundingBox pixels width height channels bg = some bbox ∧
      ((¬ ∃ x y, IsContent pixels width height channels bg x y) → bbox = emptyBox) ∧
      ((∃ x y, IsContent pixels width height channels bg x y) →
        IsTightBox pixels width height channels bg bbox) := by
  obtain ⟨s, hs, hinv⟩ := boxScan_total pixels width height channels bg hwf hc
  have hfound : s.contentFound = true ↔
      ∃ x y, IsContent pixels width height channels bg x y := by
    rw [hinv.found]
    constructor
    · rintro ⟨x, y, _, hcont⟩
      exact ⟨x, y, hcont⟩
    · rintro ⟨x, y, hcont⟩
      exact ⟨x, y, ⟨hcont.1, hcont.2.1⟩, hcont⟩
  have hrun : findContentBoundingBox pixels width height channels bg
      = some (if s.contentFound then s.bbox else emptyBox) := by
    unfold findContentBoundingBox
    have hs' : forLoop height
        (fun y s => forLoop width (boxBody pixels width channels bg y) s)
        { bbox := { top := height, left := width, bottom := -1, right := -1 },
          contentFound := false } = some s := hs
    simp only [hs', Option.bind_eq_bind, Option.some_bind]
    cases s.contentFound <;> rfl
  refine ⟨_, hrun, ?_, ?_⟩
  · intro hno
    have : s.contentFound = false := by
      cases hcf : s.contentFound
      · rfl
      · exact absurd (hfound.mp hcf) hno
    simp [this]
  · rintro ⟨x0, y0, hcont0⟩
    have hcf : s.contentFound = true := hfound.mpr ⟨x0, y0, hcont0⟩
    rw [hcf, if_pos rfl]
    have hb := hinv.encl x0 y0 ⟨hcont0.1, hcont0.2.1⟩ hcont0
    have hx0 := hcont0.1
    have hy0 := hcont0.2.1
    refine ⟨fun x y hcont => hinv.encl x y ⟨hcont.1, hcont.2.1⟩ hcont, ?_, ?_, ?_, ?_⟩
    · rcases hinv.left with h | ⟨x, y, _, hcont, e⟩
      · omega
      · exact ⟨x, y, hcont, e⟩
    · rcases hinv.right with h | ⟨x, y, _, hcont, e⟩
      · omega
      · exact ⟨x, y, hcont, e⟩
    · rcases hinv.top with h | ⟨x, y, _, hcont, e⟩
      · omega
      · exact ⟨x, y, hcont, e⟩
    · rcases hinv.bottom with h | ⟨x, y, _, hcont, e⟩
      · omega
      · exact ⟨x, y, hcont, e⟩

/-! ## The colour-count map -/

/-- The key equivalence induced by `operator<` is equality of colours. -/
theorem keyEquiv_iff (x y : ColorRGBA) : keyEquiv x y = true ↔ x = y := by
  rcases x with ⟨xr, xg, xb, xa⟩
  rcases y with ⟨yr, yg, yb, ya⟩
  simp only [keyEquiv, ColorRGBA.lt, ColorRGBA.mk.injEq, Bool.and_eq_true, Bool.not_eq_true',
    ne_eq, ite_not]
  constructor
  · rintro ⟨h1, h2⟩
    split_ifs at h1 h2 <;> simp only [decide_eq_false_iff_not] at h1 h2 <;> omega
  · rintro ⟨rfl, rfl, rfl, rfl⟩
    simp

theorem mapGet_mapIncr (m : List (ColorRGBA × Nat)) (k j : ColorRGBA) :
    mapGet (mapIncr m k) j = if j = k then mapGet m k + 1 else mapGet m j := by
  induction m with
  | nil =>
    by_cases hjk : j = k
    · simp [mapIncr, mapGet, hjk, (keyEquiv_iff k k).mpr rfl]
    · have : keyEquiv j k = false := by
        rw [← Bool.not_eq_true, keyEquiv_iff]; exact hjk
      simp [mapIncr, mapGet, hjk, this]
  | cons e rest ih =>
    rcases e with ⟨k', v⟩
    by_cases hk : k = k'
    · subst hk
      have hkk : keyEquiv k k = true := (keyEquiv_iff k k).mpr rfl
      by_cases hjk : j = k
      · subst hjk
        simp [mapIncr, mapGet, hkk]
      · have hj : keyEquiv j k = false := by
          rw [← Bool.not_eq_true, keyEquiv_iff]; exact hjk
        simp [mapIncr, mapGet, hkk, hj, hjk]
    · have hkk : keyEquiv k k' = false := by
        rw [← Bool.not_eq_true, keyEquiv_iff]; exact hk
      by_cases hjk' : j = k'
      · subst hjk'
        have hjj : keyEquiv j j = true := (keyEquiv_iff j j).mpr rfl
        have hne : ¬ j = k := fun e => hk e.symm
        simp [mapIncr, mapGet, hkk, hjj, hne]
      · have hj : keyEquiv j k' = false := by
          rw [← Bool.not_eq_true, keyEquiv_iff]; exact hjk'
        simp only [mapIncr, mapGet, hkk, hj, Bool.false_eq_true, if_false, ih]

/-! ## The background-colour scan -/

/-- Counting one more pixel `p` preserves the scan invariant. -/
theorem bgInv_count_step {L : List ColorRGBA} {s : BgScan} (p : ColorRGBA)
    (h : BgInv L s) :
    BgInv (L ++ [p])
      (if mapGet (mapIncr s.colorCounts p) p > s.maxCount then
        { colorCounts := mapIncr s.colorCounts p,
          maxCount := mapGet (mapIncr s.colorCounts p) p, backgroundColor := p }
       else { s with colorCounts := mapIncr s.colorCounts p }) := by
  have hget : ∀ j, mapGet (mapIncr s.colorCounts p) j = (L ++ [p]).count j := by
    intro j
    rw [mapGet_mapIncr, List.count_append, List.count_singleton, h.counts, h.counts]
    by_cases hj : j = p
    · subst hj; simp
    · have : (p == j) = false := by
        rw [beq_eq_false_iff_ne]; exact fun e => hj e.symm
      simp [hj, this]
  have hp : (L ++ [p]).count p = L.count p + 1 := by
    rw [List.count_append, List.count_singleton]; simp
  have hother : ∀ k, k ≠ p → (L ++ [p]).count k = L.count k := by
    intro k hk
    have : (p == k) = false := by
      rw [beq_eq_false_iff_ne]; exact fun e => hk e.symm
    rw [List.count_append, List.count_singleton, this]; simp
  have hne : L ++ [p] ≠ [] := by simp
  rw [hget p, hp]
  split_ifs with hgt
  · -- the count of `p` exceeds the running maximum: `p` becomes the leader
    have hmax : L.count p = s.maxCount := by
      have := h.maxle p; omega
    refine ⟨hget, ?_, fun e => absurd e hne, fun _ => ⟨by dsimp only; omega, hp, ?_⟩⟩
    · intro k
      dsimp only
      by_cases hk : k = p
      · subst hk; omega
      · rw [hother k hk]; have := h.maxle k; omega
    · refine ⟨(L ++ [p]).length, Nat.le_refl _, ?_, ?_⟩
      · rw [List.take_length]; exact hp
      · intro k hk
        rw [List.take_length, hother k hk]
        have := h.maxle k
        dsimp only; omega
  · -- the leader is kept
    refine ⟨hget, ?_, fun e => absurd e hne, fun _ => ?_⟩
    · intro k
      dsimp only
      by_cases hk : k = p
      · subst hk; omega
      · rw [hother k hk]; exact h.maxle k
    · dsimp only
      have hL : L ≠ [] := by
        intro e
        have := (h.start e).1
        omega
      obtain ⟨hpos, hcnt, n, hn0, hn1, hn2⟩ := h.leader hL
      have hbp : s.backgroundColor ≠ p := by
        intro e
        rw [e] at hcnt
        omega
      refine ⟨hpos, by rw [hother _ hbp]; exact hcnt, n, ?_, ?_, ?_⟩
      · rw [List.length_append]; omega
      · rw [List.take_append_of_le_length hn0]
        exact hn1
      · intro k hk
        rw [List.take_append_of_le_length hn0]
        exact hn2 k hk

theorem scannedBefore_succ (pixels : List Nat) (width channels y x : Nat) :
    scannedBefore pixels width channels y (x + 1) =
      scannedBefore pixels width channels y x ++
        [pixelAt pixels width channels x y].filter isCounted := by
  simp only [scannedBefore, List.range_succ, List.map_append, List.map_singleton,
    ← List.append_assoc, List.filter_append]

theorem scannedBefore_row_end (pixels : List Nat) (width channels y : Nat) :
    scannedBefore pixels width channels (y + 1) 0 = scannedBefore pixels width channels y width := by
  simp only [scannedBefore, List.range_succ, List.flatMap_append, List.flatMap_singleton,
    List.range_zero, List.map_nil, List.append_nil, imageRow]

theorem scannedBefore_zero_zero (pixels : List Nat) (width channels : Nat) :
    scannedBefore pixels width channels 0 0 = [] := by
  simp [scannedBefore]

theorem scannedBefore_all (pixels : List Nat) (width height channels : Nat) :
    scannedBefore pixels width channels height 0 = countedPixels pixels width height channels := by
  simp [scannedBefore, countedPixels, imagePixels]

theorem pixelAt_alpha_three (pixels : List Nat) (width x y : Nat) :
    (pixelAt pixels width 3 x y).a = 255 := by
  simp [pixelAt]

/-- One iteration of the inner loop of `findBackgroundColor` visits pixel `(x, y)`
and counts it when it is not fully transparent. -/
theorem bgInv_step {pixels : List Nat} {width height channels : Nat} {L : List ColorRGBA}
    {s : BgScan} (x y : Nat)
    (hwf : WellFormed pixels width height channels) (hc : channels = 3 ∨ channels = 4)
    (hx : x < width) (hy : y < height) (h : BgInv L s) :
    ∃ s', bgBody pixels width channels y x s = some s' ∧
      BgInv (L ++ [pixelAt pixels width channels x y].filter isCounted) s' := by
  unfold bgBody
  rw [loadColor_eq pixels width height channels x y hwf hc hx hy]
  simp only [Option.some_bind, Option.bind_eq_bind]
  by_cases ha : (pixelAt pixels width channels x y).a = 0
  · have h4 : channels = 4 := by
      rcases hc with hc | hc
      · subst hc
        rw [pixelAt_alpha_three] at ha
        omega
      · exact hc
    have hf : [pixelAt pixels width channels x y].filter isCounted = [] := by
      simp [isCounted, ha]
    rw [if_pos ⟨h4, ha⟩, hf, List.append_nil]
    exact ⟨s, rfl, h⟩
  · have hf : [pixelAt pixels width channels x y].filter isCounted
        = [pixelAt pixels width channels x y] := by
      simp [isCounted, ha]
    rw [if_neg (fun hh => ha hh.2), hf]
    have hstep := bgInv_count_step (pixelAt pixels width channels x y) h
    split_ifs with hgt
    · rw [if_pos hgt] at hstep
      exact ⟨_, rfl, hstep⟩
    · rw [if_neg hgt] at hstep
      exact ⟨_, rfl, hstep⟩

/-- On a well-formed buffer the two nested loops of `findBackgroundColor` run to
completion and the final state satisfies the scan invariant for all counted
pixels of the image. -/
theorem bgScan_total (pixels : List Nat) (width height channels : Nat)
    (hwf : WellFormed pixels width height channels) (hc : channels = 3 ∨ channels = 4) :
    ∃ s, forLoop height (fun y s => forLoop width (bgBody pixels width channels y) s) bgInit
        = some s ∧ BgInv (countedPixels pixels width height channels) s := by
  rw [← scannedBefore_all]
  refine forLoop_inv height _ (fun y s => BgInv (scannedBefore pixels width channels y 0) s) bgInit
    ?_ ?_
  · beta_reduce
    rw [scannedBefore_zero_zero]
    exact ⟨fun k => rfl, fun k => Nat.le_refl _, fun _ => ⟨rfl, rfl⟩, fun e => absurd rfl e⟩
  · intro y s hy hinv
    have inner := forLoop_inv width (bgBody pixels width channels y)
      (fun x s => BgInv (scannedBefore pixels width channels y x) s) s hinv
      (by
        intro x st hx hst
        obtain ⟨st', e, hst'⟩ := bgInv_step x y hwf hc hx hy hst
        exact ⟨st', e, by beta_reduce; rw [scannedBefore_succ]; exact hst'⟩)
    obtain ⟨st', e, hst'⟩ := inner
    exact ⟨st', e, by beta_reduce; rw [scannedBefore_row_end]; exact hst'⟩

/-- Characterisation of `findBackgroundColor` on a well-formed buffer: it returns
the leader of a final state that satisfies the scan invariant. -/
theorem findBackgroundColor_spec (pixels : List Nat) (width height channels : Nat)
    (hwf : WellFormed pixels width height channels) (hc : channels = 3 ∨ channels = 4) :
    ∃ s, findBackgroundColor pixels width height channels = some s.backgroundColor ∧
      BgInv (countedPixels pixels width height channels) s := by
  obtain ⟨s, hs, hinv⟩ := bgScan_total pixels width height channels hwf hc
  refine ⟨s, ?_, hinv⟩
  unfold findBackgroundColor
  have hs' : forLoop height (fun y s => forLoop width (bgBody pixels width channels y) s)
      { colorCounts := [], maxCount := 0, backgroundColor := ⟨255, 255, 255, 255⟩ } = some s := hs
  simp only [hs', Option.bind_eq_bind, Option.some_bind]
  rfl

theorem mem_imagePixels (pixels : List Nat) (width height channels : Nat) (p : ColorRGBA) :
    p ∈ imagePixels pixels width height channels ↔
      ∃ x y, x < width ∧ y < height ∧ pixelAt pixels width channels x y = p := by
  simp only [imagePixels, imageRow, List.mem_flatMap, List.mem_map, List.mem_range]
  constructor
  · rintro ⟨y, hy, x, hx, e⟩
    exact ⟨x, y, hx, hy, e⟩
  · rintro ⟨x, y, hx, hy, e⟩
    exact ⟨y, hy, x, hx, e⟩

theorem mem_countedPixels (pixels : List Nat) (width height channels : Nat) (p : ColorRGBA) :
    p ∈ countedPixels pixels width height channels ↔
      ∃ x y, x < width ∧ y < height ∧ pixelAt pixels width channels x y = p ∧ p.a ≠ 0 := by
  simp only [countedPixels, List.mem_filter, mem_imagePixels, isCounted, decide_eq_true_eq]
  constructor
  · rintro ⟨⟨x, y, hx, hy, e⟩, ha⟩
    exact ⟨x, y, hx, hy, e, ha⟩
  · rintro ⟨x, y, hx, hy, e, ha⟩
    exact ⟨⟨x, y, hx, hy, e⟩, ha⟩

/-! ## Consequences used by several results -/

/-- A tight box is determined by bounds on the content that are attained on each side. -/
theorem IsTightBox.eq_of_attained {pixels : List Nat} {width height channels : Nat}
    {bg : ColorRGBA} {bbox : BoundingBox} (l t r b : Nat)
    (h : IsTightBox pixels width height channels bg bbox)
    (hin : ∀ x y, IsContent pixels width height channels bg x y →
      l ≤ x ∧ x ≤ r ∧ t ≤ y ∧ y ≤ b)
    (hl : ∃ y, IsContent pixels width height channels bg l y)
    (hr : ∃ y, IsContent pixels width height channels bg r y)
    (ht : ∃ x, IsContent pixels width height channels bg x t)
    (hb : ∃ x, IsContent pixels width height channels bg x b) :
    bbox = { top := t, left := l, bottom := b, right := r } := by
  obtain ⟨yl, hl⟩ := hl
  obtain ⟨yr, hr⟩ := hr
  obtain ⟨xt, ht⟩ := ht
  obtain ⟨xb, hb⟩ := hb
  obtain ⟨x1, y1, c1, e1⟩ := h.left
  obtain ⟨x2, y2, c2, e2⟩ := h.right
  obtain ⟨x3, y3, c3, e3⟩ := h.top
  obtain ⟨x4, y4, c4, e4⟩ := h.bottom
  have b1 := hin x1 y1 c1
  have b2 := hin x2 y2 c2
  have b3 := hin x3 y3 c3
  have b4 := hin x4 y4 c4
  have a1 := h.encl l yl hl
  have a2 := h.encl r yr hr
  have a3 := h.encl xt t ht
  have a4 := h.encl xb b hb
  rcases bbox with ⟨bt, bl, bb, br⟩
  simp only [BoundingBox.mk.injEq] at *
  refine ⟨?_, ?_, ?_, ?_⟩ <;> omega

/-- A tight box has natural-number sides that lie inside the image. -/
theorem IsTightBox.sides {pixels : List Nat} {width height channels : Nat}
    {bg : ColorRGBA} {bbox : BoundingBox}
    (h : IsTightBox pixels width height channels bg bbox) :
    ∃ l t r b : Nat, bbox = { top := t, left := l, bottom := b, right := r } ∧
      l ≤ r ∧ r < width ∧ t ≤ b ∧ b < height := by
  obtain ⟨x1, y1, c1, e1⟩ := h.left
  obtain ⟨x2, y2, c2, e2⟩ := h.right
  obtain ⟨x3, y3, c3, e3⟩ := h.top
  obtain ⟨x4, y4, c4, e4⟩ := h.bottom
  have a1 := h.encl x1 y1 c1
  have a3 := h.encl x3 y3 c3
  have r2 := c2.1
  have r4 := c4.2.1
  rcases bbox with ⟨bt, bl, bb, br⟩
  dsimp only at *
  subst e1 e2 e3 e4
  exact ⟨x1, y3, x2, y4, rfl, by omega, r2, by omega, r4⟩

/-- In a buffer that is valid for its channel count, the background test of a
pixel does not depend on whether the pixel is stored with three or four channels. -/
theorem isBackground_four_iff (pixels : List Nat) (width channels x y : Nat) (bg : ColorRGBA)
    (hc : channels = 3 ∨ channels = 4) :
    IsBackground 4 bg (pixelAt pixels width channels x y) ↔
      IsBackground channels bg (pixelAt pixels width channels x y) := by
  rcases hc with hc | hc
  · subst hc
    unfold IsBackground
    rw [pixelAt_alpha_three]
    constructor
    · rintro (h | ⟨_, h⟩)
      · exact Or.inl h
      · omega
    · rintro (h | ⟨h, _⟩)
      · exact Or.inl h
      · omega
  · subst hc
    exact Iff.rfl

/-! ## Bounding-box detection -/

/-- C1: on a buffer of `width * height * channels` samples with `channels` 3 or 4
that has at least one non-background pixel, `findContentBoundingBox` returns the
tight box: it encloses every non-background pixel, and `left`, `right`, `top`,
`bottom` are each attained by one, so they are the minimum and maximum `x` and `y`
over the non-background pixels. -/
theorem findContentBoundingBox_tight (pixels : List Nat) (width height channels : Nat)
    (bg : ColorRGBA) (hwf : WellFormed pixels width height channels)
    (hc : channels = 3 ∨ channels = 4)
    (hne : ∃ x y, IsContent pixels width height channels bg x y) :
    ∃ bbox, findContentBoundingBox pixels width height channels bg = some bbox ∧
      (∀ x y, IsContent pixels width height channels bg x y →
        bbox.left ≤ x ∧ (x : Int) ≤ bbox.right ∧ bbox.top ≤ y ∧ (y : Int) ≤ bbox.bottom) ∧
      (∃ x y, IsContent pixels width height channels bg x y ∧ bbox.left = x) ∧
      (∃ x y, IsContent pixels width height channels bg x y ∧ bbox.right = x) ∧
      (∃ x y, IsContent pixels width height channels bg x y ∧ bbox.top = y) ∧
      (∃ x y, IsContent pixels width height channels bg x y ∧ bbox.bottom = y) := by
  obtain ⟨bbox, hrun, _, htight⟩ :=
    findContentBoundingBox_spec pixels width height channels bg hwf hc
  have ht := htight hne
  exact ⟨bbox, hrun, ht.encl, ht.left, ht.right, ht.top, ht.bottom⟩

/-- Instance of the tight-box theorem on the 4x1 image `A B B A` with background `A`. -/
theorem findContentBoundingBox_tight_witness :
    ∃ bbox, findContentBoundingBox tieImage 4 1 3 ⟨1, 2, 3, 255⟩ = some bbox ∧
      (∀ x y, IsContent tieImage 4 1 3 ⟨1, 2, 3, 255⟩ x y →
        bbox.left ≤ x ∧ (x : Int) ≤ bbox.right ∧ bbox.top ≤ y ∧ (y : Int) ≤ bbox.bottom) ∧
      (∃ x y, IsContent tieImage 4 1 3 ⟨1, 2, 3, 255⟩ x y ∧ bbox.left = x) ∧
      (∃ x y, IsContent tieImage 4 1 3 ⟨1, 2, 3, 255⟩ x y ∧ bbox.right = x) ∧
      (∃ x y, IsContent tieImage 4 1 3 ⟨1, 2, 3, 255⟩ x y ∧ bbox.top = y) ∧
      (∃ x y, IsContent tieImage 4 1 3 ⟨1, 2, 3, 255⟩ x y ∧ bbox.bottom = y) :=
  findContentBoundingBox_tight tieImage 4 1 3 ⟨1, 2, 3, 255⟩ (by decide) (Or.inl rfl)
    ⟨1, 0, by decide⟩

/-- C8: on every well-formed buffer, also one without pixels, `findContentBoundingBox`
returns the empty box (`width() = 0`, `height() = 0`, `isValid()` false) exactly
when no pixel is classified non-background; otherwise the returned box is valid. -/
theorem findContentBoundingBox_empty_iff (pixels : List Nat) (width height channels : Nat)
    (bg : ColorRGBA) (hwf : WellFormed pixels width height channels)
    (hc : channels = 3 ∨ channels = 4) :
    ∃ bbox, findContentBoundingBox pixels width height channels bg = some bbox ∧
      ((bbox.width = 0 ∧ bbox.height = 0 ∧ bbox.isValid = false) ↔
        ¬ ∃ x y, IsContent pixels width height channels bg x y) ∧
      ((∃ x y, IsContent pixels width height channels bg x y) → bbox.isValid = true) := by
  obtain ⟨bbox, hrun, hempty, htight⟩ :=
    findContentBoundingBox_spec pixels width height channels bg hwf hc
  have hvalid : (∃ x y, IsContent pixels width height channels bg x y) →
      bbox.isValid = true := by
    intro hne
    obtain ⟨l, t, r, b, rfl, hlr, _, htb, _⟩ := (htight hne).sides
    unfold BoundingBox.isValid
    rw [width_natCast t l b r hlr, height_natCast t l b r htb]
    simp
  refine ⟨bbox, hrun, ?_, hvalid⟩
  constructor
  · rintro ⟨_, _, hinv⟩ hne
    rw [hvalid hne] at hinv
    exact Bool.noConfusion hinv
  · intro hno
    rw [hempty hno]
    decide

/-- Instance of the empty-box criterion on the 4x1 image `A B B A` with background `A`. -/
theorem findContentBoundingBox_empty_iff_witness :
    ∃ bbox, findContentBoundingBox tieImage 4 1 3 ⟨1, 2, 3, 255⟩ = some bbox ∧
      ((bbox.width = 0 ∧ bbox.height = 0 ∧ bbox.isValid = false) ↔
        ¬ ∃ x y, IsContent tieImage 4 1 3 ⟨1, 2, 3, 255⟩ x y) ∧
      ((∃ x y, IsContent tieImage 4 1 3 ⟨1, 2, 3, 255⟩ x y) → bbox.isValid = true) :=
  findContentBoundingBox_empty_iff tieImage 4 1 3 ⟨1, 2, 3, 255⟩ (by decide) (Or.inl rfl)

/-! ## Background estimation -/

theorem countedPixels_ne_nil (pixels : List Nat) (width height channels : Nat)
    (hq : ∃ x y, x < width ∧ y < height ∧ (pixelAt pixels width channels x y).a ≠ 0) :
    countedPixels pixels width height channels ≠ [] := by
  obtain ⟨x, y, hx, hy, ha⟩ := hq
  have hmem : pixelAt pixels width channels x y ∈ countedPixels pixels width height channels :=
    (mem_countedPixels pixels width height channels _).mpr ⟨x, y, hx, hy, rfl, ha⟩
  exact List.ne_nil_of_mem hmem

/-- C2: on a well-formed buffer with `channels` 3 or 4 that has a pixel whose derived
alpha is not `0`, `findBackgroundColor` returns a colour that occurs among the
non-fully-transparent pixels and whose number of occurrences there is at least
that of every colour. -/
theorem findBackgroundColor_most_frequent (pixels : List Nat) (width height channels : Nat)
    (hwf : WellFormed pixels width height channels) (hc : channels = 3 ∨ channels = 4)
    (hq : ∃ x y, x < width ∧ y < height ∧ (pixelAt pixels width channels x y).a ≠ 0) :
    ∃ bgc, findBackgroundColor pixels width height channels = some bgc ∧
      bgc ∈ countedPixels pixels width height channels ∧
      ∀ k, (countedPixels pixels width height channels).count k ≤
        (countedPixels pixels width height channels).count bgc := by
  obtain ⟨s, hrun, hinv⟩ := findBackgroundColor_spec pixels width height channels hwf hc
  obtain ⟨hpos, hcnt, _⟩ :=
    hinv.leader (countedPixels_ne_nil pixels width height channels hq)
  refine ⟨s.backgroundColor, hrun, ?_, ?_⟩
  · rw [← List.count_pos_iff, hcnt]
    exact hpos
  · intro k
    rw [hcnt]
    exact hinv.maxle k

/-- Instance of the most-frequent-colour theorem on the 4x1 image `A B B A`. -/
theorem findBackgroundColor_most_frequent_witness :
    ∃ bgc, findBackgroundColor tieImage 4 1 3 = some bgc ∧
      bgc ∈ countedPixels tieImage 4 1 3 ∧
      ∀ k, (countedPixels tieImage 4 1 3).count k ≤ (countedPixels tieImage 4 1 3).count bgc :=
  findBackgroundColor_most_frequent tieImage 4 1 3 (by decide) (Or.inl rfl)
    ⟨0, 0, by decide⟩

/-- C3, as stated, fails on the image `A B B A`: the colours `A = (1,2,3,255)` and
`B = (4,5,6,255)` both occur twice, which is the maximum count, and `A` is seen
first, yet `findBackgroundColor` returns `B`. -/
theorem findBackgroundColor_tie_not_first_seen :
    findBackgroundColor tieImage 4 1 3 = some ⟨4, 5, 6, 255⟩ ∧
    (countedPixels tieImage 4 1 3).count ⟨1, 2, 3, 255⟩ = 2 ∧
    (countedPixels tieImage 4 1 3).count ⟨4, 5, 6, 255⟩ = 2 ∧
    (∀ k ∈ countedPixels tieImage 4 1 3, (countedPixels tieImage 4 1 3).count k ≤ 2) ∧
    (countedPixels tieImage 4 1 3).indexOf ⟨1, 2, 3, 255⟩ <
      (countedPixels tieImage 4 1 3).indexOf ⟨4, 5, 6, 255⟩ := by
  decide

/-- C3, amended: on a well-formed buffer with a counted pixel, the returned colour has
the maximum occurrence count `M`, and among the colours with count `M` it is the one
whose count reaches `M` first in row-major scan order: some prefix of the scan
contains all `M` occurrences of the returned colour and fewer than `M` occurrences
of every other colour. -/
theorem findBackgroundColor_first_to_reach_max (pixels : List Nat)
    (width height channels : Nat)
    (hwf : WellFormed pixels width height channels) (hc : channels = 3 ∨ channels = 4)
    (hq : ∃ x y, x < width ∧ y < height ∧ (pixelAt pixels width channels x y).a ≠ 0) :
    ∃ bgc, findBackgroundColor pixels width height channels = some bgc ∧
      (∀ k, (countedPixels pixels width height channels).count k ≤
        (countedPixels pixels width height channels).count bgc) ∧
      ∃ n, ((countedPixels pixels width height channels).take n).count bgc =
          (countedPixels pixels width height channels).count bgc ∧
        ∀ k, k ≠ bgc → ((countedPixels pixels width height channels).take n).count k <
          (countedPixels pixels width height channels).count bgc := by
  obtain ⟨s, hrun, hinv⟩ := findBackgroundColor_spec pixels width height channels hwf hc
  obtain ⟨_, hcnt, n, _, hn1, hn2⟩ :=
    hinv.leader (countedPixels_ne_nil pixels width height channels hq)
  refine ⟨s.backgroundColor, hrun, ?_, n, ?_, ?_⟩
  · intro k
    rw [hcnt]
    exact hinv.maxle k
  · rw [hcnt]
    exact hn1
  · intro k hk
    rw [hcnt]
    exact hn2 k hk

/-- Instance of the first-to-reach-the-maximum theorem on the 4x1 image `A B B A`. -/
theorem findBackgroundColor_first_to_reach_max_witness :
    ∃ bgc, findBackgroundColor tieImage 4 1 3 = some bgc ∧
      (∀ k, (countedPixels tieImage 4 1 3).count k ≤
        (countedPixels tieImage 4 1 3).count bgc) ∧
      ∃ n, ((countedPixels tieImage 4 1 3).take n).count bgc =
          (countedPixels tieImage 4 1 3).count bgc ∧
        ∀ k, k ≠ bgc → ((countedPixels tieImage 4 1 3).take n).count k <
          (countedPixels tieImage 4 1 3).count bgc :=
  findBackgroundColor_first_to_reach_max tieImage 4 1 3 (by decide) (Or.inl rfl)
    ⟨0, 0, by decide⟩

/-- C9: on a well-formed buffer in which no pixel qualifies, because it has no pixels
or because it has four channels and every alpha is `0`, `findBackgroundColor`
returns opaque white `(255,255,255,255)`. -/
theorem findBackgroundColor_default_white (pixels : List Nat) (width height channels : Nat)
    (hwf : WellFormed pixels width height channels) (hc : channels = 3 ∨ channels = 4)
    (hno : width * height = 0 ∨
      (channels = 4 ∧ ∀ x y, x < width → y < height →
        (pixelAt pixels width channels x y).a = 0)) :
    findBackgroundColor pixels width height channels = some ⟨255, 255, 255, 255⟩ := by
  obtain ⟨s, hrun, hinv⟩ := findBackgroundColor_spec pixels width height channels hwf hc
  have hnil : countedPixels pixels width height channels = [] := by
    rw [List.eq_nil_iff_forall_not_mem]
    intro p hp
    obtain ⟨x, y, hx, hy, e, ha⟩ := (mem_countedPixels pixels width height channels p).mp hp
    rcases hno with h0 | ⟨_, hall⟩
    · have : (y + 1) * width ≤ height * width := Nat.mul_le_mul_right width hy
      have e2 : (y + 1) * width = y * width + width := Nat.succ_mul y width
      have e3 : height * width = width * height := Nat.mul_comm _ _
      omega
    · exact ha (e ▸ hall x y hx hy)
  rw [hrun, (hinv.start hnil).2]
  rfl

/-- Instance of the default-colour theorem on a 2x1 four-channel image with alpha `0`. -/
theorem findBackgroundColor_default_white_witness :
    findBackgroundColor [7, 8, 9, 0, 1, 2, 3, 0] 2 1 4 = some ⟨255, 255, 255, 255⟩ :=
  findBackgroundColor_default_white [7, 8, 9, 0, 1, 2, 3, 0] 2 1 4 (by decide) (Or.inr rfl)
    (Or.inr ⟨rfl, fun x y hx hy =>
      (by decide : ∀ x, x < 2 → ∀ y, y < 1 →
        (pixelAt [7, 8, 9, 0, 1, 2, 3, 0] 2 4 x y).a = 0) x hx y hy⟩)

/-- C10: on a well-formed buffer with at least one pixel in which every pixel has the
same colour `C`, where the buffer has three channels, or four channels and the alpha
of `C` is at least `10`, `findBackgroundColor` returns `C`. -/
theorem findBackgroundColor_uniform (pixels : List Nat) (width height channels : Nat)
    (C : ColorRGBA) (hwf : WellFormed pixels width height channels)
    (hne : 0 < width * height)
    (hall : ∀ x y, x < width → y < height → pixelAt pixels width channels x y = C)
    (ha : channels = 3 ∨ (channels = 4 ∧ 10 ≤ C.a)) :
    findBackgroundColor pixels width height channels = some C := by
  have hc : channels = 3 ∨ channels = 4 := ha.imp id And.left
  have hw : 0 < width := Nat.pos_of_mul_pos_right hne
  have hh : 0 < height := Nat.pos_of_mul_pos_left hne
  have hCa : C.a ≠ 0 := by
    rcases ha with h3 | ⟨_, h10⟩
    · subst h3
      rw [← hall 0 0 hw hh, pixelAt_alpha_three]
      decide
    · omega
  obtain ⟨s, hrun, hinv⟩ := findBackgroundColor_spec pixels width height channels hwf hc
  have hq : ∃ x y, x < width ∧ y < height ∧ (pixelAt pixels width channels x y).a ≠ 0 :=
    ⟨0, 0, hw, hh, by rw [hall 0 0 hw hh]; exact hCa⟩
  obtain ⟨hpos, hcnt, _⟩ :=
    hinv.leader (countedPixels_ne_nil pixels width height channels hq)
  have hmem : s.backgroundColor ∈ countedPixels pixels width height channels := by
    rw [← List.count_pos_iff, hcnt]
    exact hpos
  obtain ⟨x, y, hx, hy, e, _⟩ :=
    (mem_countedPixels pixels width height channels _).mp hmem
  rw [hrun, ← e, hall x y hx hy]

/-- Instance of the uniform-image theorem on a 1x2 four-channel image of one colour. -/
theorem findBackgroundColor_uniform_witness :
    findBackgroundColor [9, 8, 7, 200, 9, 8, 7, 200] 1 2 4 = some ⟨9, 8, 7, 200⟩ :=
  findBackgroundColor_uniform [9, 8, 7, 200, 9, 8, 7, 200] 1 2 4 ⟨9, 8, 7, 200⟩ (by decide)
    (by decide)
    (fun x y hx hy =>
      (by decide : ∀ x, x < 1 → ∀ y, y < 2 →
        pixelAt [9, 8, 7, 200, 9, 8, 7, 200] 1 4 x y = ⟨9, 8, 7, 200⟩) x hx y hy)
    (Or.inr ⟨rfl, by decide⟩)

/-! ## Cropping -/

/-- C5: for a well-formed source buffer with `channels` 3 or 4 and a box with
`0 ≤ left ≤ right < width` and `0 ≤ top ≤ bottom < height`, when the allocation
succeeds `trimImage` returns a buffer of `box.width() * box.height()` pixels with
four samples each and reports these dimensions; destination pixel `(x, y)` holds
the `R, G, B` of source pixel `(left + x, top + y)`, and its alpha is the source
alpha for a 4-channel source and `255` for a 3-channel source. -/
theorem trimImage_copies (alloc : Nat → Option (List Nat)) (pixels : List Nat)
    (width height channels : Nat) (bbox : BoundingBox) (buf0 : List Nat)
    (hwf : WellFormed pixels width height channels) (hc : channels = 3 ∨ channels = 4)
    (hl : 0 ≤ bbox.left) (hlr : bbox.left ≤ bbox.right) (hr : bbox.right < width)
    (ht : 0 ≤ bbox.top) (htb : bbox.top ≤ bbox.bottom) (hb : bbox.bottom < height)
    (halloc : alloc (bbox.width.toNat * bbox.height.toNat * 4) = some buf0)
    (hbuf : buf0.length = bbox.width.toNat * bbox.height.toNat * 4) :
    ∃ out, trimImage alloc pixels width channels bbox
        = some { pixels := some out, outWidth := bbox.width, outHeight := bbox.height } ∧
      out.length = bbox.width.toNat * bbox.height.toNat * 4 ∧
      ∀ x y : Nat, (x : Int) < bbox.width → (y : Int) < bbox.height →
        sample out ((y * bbox.width.toNat + x) * 4)
          = sample pixels (((bbox.top.toNat + y) * width + (bbox.left.toNat + x)) * channels) ∧
        sample out ((y * bbox.width.toNat + x) * 4 + 1)
          = sample pixels
              (((bbox.top.toNat + y) * width + (bbox.left.toNat + x)) * channels + 1) ∧
        sample out ((y * bbox.width.toNat + x) * 4 + 2)
          = sample pixels
              (((bbox.top.toNat + y) * width + (bbox.left.toNat + x)) * channels + 2) ∧
        sample out ((y * bbox.width.toNat + x) * 4 + 3)
          = (if channels = 4 then
              sample pixels
                (((bbox.top.toNat + y) * width + (bbox.left.toNat + x)) * channels + 3)
             else 255) := by
  rcases bbox with ⟨t, l, b, r⟩
  dsimp only at hl hlr hr ht htb hb
  lift l to ℕ using hl
  lift t to ℕ using ht
  lift r to ℕ using (by omega)
  lift b to ℕ using (by omega)
  have hlr' : l ≤ r := by exact_mod_cast hlr
  have htb' : t ≤ b := by exact_mod_cast htb
  have hr' : r < width := by exact_mod_cast hr
  have hb' : b < height := by exact_mod_cast hb
  rw [width_natCast t l b r hlr', height_natCast t l b r htb'] at halloc hbuf ⊢
  simp only [Int.toNat_ofNat] at halloc hbuf ⊢
  obtain ⟨out, hrun, hlen, hpix⟩ := trimImage_nat alloc pixels width height channels l t r b
    buf0 hwf hc hlr' hr' htb' hb' halloc hbuf
  refine ⟨out, hrun, hlen, ?_⟩
  intro x y hx hy
  have hx' : x < r - l + 1 := by exact_mod_cast hx
  have hy' : y < b - t + 1 := by exact_mod_cast hy
  have e := hpix x y hx' hy'
  rw [pixelAt_four] at e
  simp only [pixelAt, ColorRGBA.mk.injEq] at e
  exact e

/-- Instance of the crop theorem: the two middle pixels of the 4x1 image `A B B A`. -/
theorem trimImage_copies_witness :
    ∃ out, trimImage allocZero tieImage 4 3 ⟨0, 1, 0, 2⟩
        = some { pixels := some out, outWidth := (BoundingBox.mk 0 1 0 2).width,
                 outHeight := (BoundingBox.mk 0 1 0 2).height } ∧
      out.length = (BoundingBox.mk 0 1 0 2).width.toNat *
        (BoundingBox.mk 0 1 0 2).height.toNat * 4 ∧
      ∀ x y : Nat, (x : Int) < (BoundingBox.mk 0 1 0 2).width →
        (y : Int) < (BoundingBox.mk 0 1 0 2).height →
        sample out ((y * (BoundingBox.mk 0 1 0 2).width.toNat + x) * 4)
          = sample tieImage ((((BoundingBox.mk 0 1 0 2).top.toNat + y) * 4 +
              ((BoundingBox.mk 0 1 0 2).left.toNat + x)) * 3) ∧
        sample out ((y * (BoundingBox.mk 0 1 0 2).width.toNat + x) * 4 + 1)
          = sample tieImage ((((BoundingBox.mk 0 1 0 2).top.toNat + y) * 4 +
              ((BoundingBox.mk 0 1 0 2).left.toNat + x)) * 3 + 1) ∧
        sample out ((y * (BoundingBox.mk 0 1 0 2).width.toNat + x) * 4 + 2)
          = sample tieImage ((((BoundingBox.mk 0 1 0 2).top.toNat + y) * 4 +
              ((BoundingBox.mk 0 1 0 2).left.toNat + x)) * 3 + 2) ∧
        sample out ((y * (BoundingBox.mk 0 1 0 2).width.toNat + x) * 4 + 3)
          = (if 3 = 4 then
              sample tieImage ((((BoundingBox.mk 0 1 0 2).top.toNat + y) * 4 +
                ((BoundingBox.mk 0 1 0 2).left.toNat + x)) * 3 + 3)
             else 255) :=
  trimImage_copies allocZero tieImage 4 1 3 ⟨0, 1, 0, 2⟩ (List.replicate 8 0) (by decide)
    (Or.inl rfl) (by decide) (by decide) (by decide) (by decide) (by decide) (by decide)
    (by decide) (by decide)

/-- Re-detection on a crop of the tight box of the content finds the whole crop. -/
theorem redetect_nat (pixels out : List Nat) (width height channels l t r b : Nat)
    (bg : ColorRGBA) (hc : channels = 3 ∨ channels = 4)
    (hlr : l ≤ r) (hr : r < width) (htb : t ≤ b) (hb : b < height)
    (htight : IsTightBox pixels width height channels bg (BoundingBox.mk t l b r))
    (hwf : WellFormed out (r - l + 1) (b - t + 1) 4)
    (hpix : ∀ x y, x < r - l + 1 → y < b - t + 1 →
      pixelAt out (r - l + 1) 4 x y = pixelAt pixels width channels (l + x) (t + y)) :
    findContentBoundingBox out (r - l + 1) (b - t + 1) 4 bg
      = some { top := 0, left := 0, bottom := ((b - t + 1 : Nat) : Int) - 1,
               right := ((r - l + 1 : Nat) : Int) - 1 } := by
  have hiff : ∀ x y, x < r - l + 1 → y < b - t + 1 →
      (IsContent out (r - l + 1) (b - t + 1) 4 bg x y ↔
        IsContent pixels width height channels bg (l + x) (t + y)) := by
    intro x y hx hy
    unfold IsContent
    rw [hpix x y hx hy, isBackground_four_iff pixels width channels (l + x) (t + y) bg hc]
    constructor
    · rintro ⟨_, _, h⟩
      exact ⟨by omega, by omega, h⟩
    · rintro ⟨_, _, h⟩
      exact ⟨hx, hy, h⟩
  -- every content pixel of the source lies in the box and maps into the crop
  have hback : ∀ x y, IsContent pixels width height channels bg x y →
      IsContent out (r - l + 1) (b - t + 1) 4 bg (x - l) (y - t) ∧ l ≤ x ∧ x ≤ r ∧
        t ≤ y ∧ y ≤ b := by
    intro x y hcont
    have hb4 := htight.encl x y hcont
    dsimp only at hb4
    have hxl : l ≤ x := by omega
    have hxr : x ≤ r := by omega
    have hyt : t ≤ y := by omega
    have hyb : y ≤ b := by omega
    refine ⟨?_, hxl, hxr, hyt, hyb⟩
    rw [hiff (x - l) (y - t) (by omega) (by omega)]
    rw [show l + (x - l) = x by omega, show t + (y - t) = y by omega]
    exact hcont
  obtain ⟨x1, y1, c1, e1⟩ := htight.left
  obtain ⟨x2, y2, c2, e2⟩ := htight.right
  obtain ⟨x3, y3, c3, e3⟩ := htight.top
  obtain ⟨x4, y4, c4, e4⟩ := htight.bottom
  dsimp only at e1 e2 e3 e4
  have k1 := hback x1 y1 c1
  have k2 := hback x2 y2 c2
  have k3 := hback x3 y3 c3
  have k4 := hback x4 y4 c4
  obtain ⟨bbox, hrun, _, htight'⟩ :=
    findContentBoundingBox_spec out (r - l + 1) (b - t + 1) 4 bg hwf (Or.inr rfl)
  have hbox := (htight' ⟨_, _, k1.1⟩).eq_of_attained 0 0 (r - l) (b - t)
    (fun x y hcont => ⟨Nat.zero_le _, by have := hcont.1; omega, Nat.zero_le _,
      by have := hcont.2.1; omega⟩)
    ⟨y1 - t, by have := k1.1; rwa [show x1 - l = 0 by omega] at this⟩
    ⟨y2 - t, by have := k2.1; rwa [show x2 - l = r - l by omega] at this⟩
    ⟨x3 - l, by have := k3.1; rwa [show y3 - t = 0 by omega] at this⟩
    ⟨x4 - l, by have := k4.1; rwa [show y4 - t = b - t by omega] at this⟩
  rw [hrun, hbox]
  simp only [Option.some.injEq, BoundingBox.mk.injEq]
  refine ⟨?_, ?_, ?_, ?_⟩ <;> omega

/-- C7: when `findContentBoundingBox` returns a non-empty box `B` on a well-formed
buffer, cropping with `trimImage` to `B` (allocation succeeding) and applying
`findContentBoundingBox` with the same background colour to the 4-channel crop
returns the box of the whole crop: `top = 0`, `left = 0`, `bottom = B.height() - 1`,
`right = B.width() - 1`. -/
theorem findContentBoundingBox_trimImage (alloc : Nat → Option (List Nat))
    (pixels : List Nat) (width height channels : Nat) (bg : ColorRGBA) (B : BoundingBox)
    (buf0 : List Nat)
    (hwf : WellFormed pixels width height channels) (hc : channels = 3 ∨ channels = 4)
    (hdet : findContentBoundingBox pixels width height channels bg = some B)
    (hvalid : B.isValid = true)
    (halloc : alloc (B.width.toNat * B.height.toNat * 4) = some buf0)
    (hbuf : buf0.length = B.width.toNat * B.height.toNat * 4) :
    ∃ out, trimImage alloc pixels width channels B
        = some { pixels := some out, outWidth := B.width, outHeight := B.height } ∧
      findContentBoundingBox out B.width.toNat B.height.toNat 4 bg
        = some { top := 0, left := 0, bottom := B.height - 1, right := B.width - 1 } := by
  obtain ⟨bbox, hrun, hempty, htight⟩ :=
    findContentBoundingBox_spec pixels width height channels bg hwf hc
  have hB : bbox = B := Option.some.inj (hrun.symm.trans hdet)
  subst hB
  have hne : ∃ x y, IsContent pixels width height channels bg x y := by
    by_contra hno
    rw [hempty hno] at hvalid
    exact absurd hvalid (by decide)
  have ht := htight hne
  obtain ⟨l, t, r, b, rfl, hlr, hr, htb, hb⟩ := ht.sides
  rw [width_natCast t l b r hlr, height_natCast t l b r htb] at halloc hbuf ⊢
  simp only [Int.toNat_ofNat] at halloc hbuf ⊢
  obtain ⟨out, hcrop, hwf', hpix⟩ := trimImage_nat alloc pixels width height channels l t r b
    buf0 hwf hc hlr hr htb hb halloc hbuf
  exact ⟨out, hcrop, redetect_nat pixels out width height channels l t r b bg hc hlr hr htb hb
    ht hwf' hpix⟩

/-- Instance of the re-detection theorem on the 4x1 image `A B B A` with background `A`. -/
theorem findContentBoundingBox_trimImage_witness :
    ∃ out, trimImage allocZero tieImage 4 3 ⟨0, 1, 0, 2⟩
        = some { pixels := some out, outWidth := (BoundingBox.mk 0 1 0 2).width,
                 outHeight := (BoundingBox.mk 0 1 0 2).height } ∧
      findContentBoundingBox out (BoundingBox.mk 0 1 0 2).width.toNat
          (BoundingBox.mk 0 1 0 2).height.toNat 4 ⟨1, 2, 3, 255⟩
        = some { top := 0, left := 0, bottom := (BoundingBox.mk 0 1 0 2).height - 1,
                 right := (BoundingBox.mk 0 1 0 2).width - 1 } :=
  findContentBoundingBox_trimImage allocZero tieImage 4 1 3 ⟨1, 2, 3, 255⟩ ⟨0, 1, 0, 2⟩
    (List.replicate 8 0) (by decide) (Or.inl rfl) (by decide) (by decide) (by decide)
    (by decide)

/-! ## Scaling -/

theorem roundHalfEven_err (r : ℚ) : |((roundHalfEven r : Int) : ℚ) - r| ≤ 1 / 2 := by
  have h1 := Int.floor_le r
  have h2 := Int.lt_floor_add_one r
  unfold roundHalfEven
  split_ifs <;> rw [abs_le] <;> constructor <;> push_cast <;> linarith

theorem ulp_pos (q : ℚ) : 0 < ulp q := by
  unfold ulp
  positivity

theorem ulp_le (q : ℚ) (hq : 0 < q) : ulp q ≤ q / 2 ^ 52 := by
  unfold ulp
  rw [abs_of_pos hq]
  have h := Int.zpow_log_le_self (b := 2) (r := q) (by norm_num) hq
  simp only [Nat.cast_ofNat] at h
  exact div_le_div_of_nonneg_right h (by positivity)

theorem fl_err (q : ℚ) (hq : 0 < q) : |fl q - q| ≤ q / 2 ^ 53 := by
  unfold fl
  rw [if_neg hq.ne']
  have hu := ulp_pos q
  have h := roundHalfEven_err (q / ulp q)
  have e : ((roundHalfEven (q / ulp q) : Int) : ℚ) * ulp q - q
      = (((roundHalfEven (q / ulp q) : Int) : ℚ) - q / ulp q) * ulp q := by
    field_simp
  rw [e, abs_mul, abs_of_pos hu]
  calc |((roundHalfEven (q / ulp q) : Int) : ℚ) - q / ulp q| * ulp q
      ≤ 1 / 2 * ulp q := mul_le_mul_of_nonneg_right h hu.le
    _ ≤ 1 / 2 * (q / 2 ^ 52) := mul_le_mul_of_nonneg_left (ulp_le q hq) (by norm_num)
    _ = q / 2 ^ 53 := by ring

theorem fl_bounds (q : ℚ) (hq : 0 < q) :
    q * (1 - 1 / 2 ^ 53) ≤ fl q ∧ fl q ≤ q * (1 + 1 / 2 ^ 53) := by
  have h := abs_le.mp (fl_err q hq)
  constructor <;> linarith [h.1, h.2]

theorem scale_bounds (a b : ℚ) (ha : 0 < a) (hb : 0 < b) :
    min a b * (1 - 1 / 2 ^ 53) ≤ min (fl a) (fl b) ∧
    min (fl a) (fl b) ≤ min a b * (1 + 1 / 2 ^ 53) := by
  obtain ⟨la, ua⟩ := fl_bounds a ha
  obtain ⟨lb, ub⟩ := fl_bounds b hb
  rcases le_total a b with hab | hab
  · rw [min_eq_left hab]
    refine ⟨le_min la ?_, le_trans (min_le_left _ _) ua⟩
    norm_num at lb ⊢
    linarith
  · rw [min_eq_right hab]
    refine ⟨le_min ?_ lb, le_trans (min_le_right _ _) ub⟩
    norm_num at la ⊢
    linarith

theorem product_err (n s sd : ℚ) (hn : 0 < n) (hs : 0 < s)
    (hlo : s * (1 - 1 / 2 ^ 53) ≤ sd) (hhi : sd ≤ s * (1 + 1 / 2 ^ 53))
    (hq : n * s ≤ 360) :
    0 ≤ fl (n * sd) ∧ |fl (n * sd) - n * s| ≤ 1 / 2 ^ 42 := by
  have hsd : 0 < sd := by
    have : 0 < s * (1 - 1 / 2 ^ 53) := mul_pos hs (by norm_num)
    linarith
  have hnsd : 0 < n * sd := mul_pos hn hsd
  obtain ⟨l, u⟩ := fl_bounds (n * sd) hnsd
  have h1 : n * (s * (1 - 1 / 2 ^ 53)) ≤ n * sd := mul_le_mul_of_nonneg_left hlo hn.le
  have h2 : n * sd ≤ n * (s * (1 + 1 / 2 ^ 53)) := mul_le_mul_of_nonneg_left hhi hn.le
  have hns : 0 < n * s := mul_pos hn hs
  have e1 : n * (s * (1 - 1 / 2 ^ 53)) = (n * s) * (1 - 1 / 2 ^ 53) := by ring
  have e2 : n * (s * (1 + 1 / 2 ^ 53)) = (n * s) * (1 + 1 / 2 ^ 53) := by ring
  rw [e1] at h1
  rw [e2] at h2
  generalize n * sd = x at *
  generalize n * s = q at *
  generalize fl x = p at *
  norm_num at l u h1 h2 ⊢
  refine ⟨by linarith, ?_⟩
  rw [abs_le]
  constructor <;> linarith


theorem stdRound_close (p q : ℚ) (D K : Int) (hD : 0 < D) (hK : 2 * (D : ℚ) * q = K)
    (hp : 0 ≤ p) (hpq : |p - q| < 1 / (2 * (D : ℚ))) :
    |((stdRound p : Int) : ℚ) - q| ≤ 1 / 2 := by
  unfold stdRound
  rw [if_pos hp]
  have h1 := Int.floor_le (p + 1 / 2)
  have h2 := Int.lt_floor_add_one (p + 1 / 2)
  have hd : (0 : ℚ) < D := by exact_mod_cast hD
  have h2d : (0 : ℚ) < 2 * (D : ℚ) := by linarith
  obtain ⟨l, u⟩ := abs_lt.mp hpq
  have u' : (p - q) * (2 * (D : ℚ)) < 1 := (lt_div_iff₀ h2d).mp u
  have l' : -1 < (p - q) * (2 * (D : ℚ)) := by
    have := (div_lt_iff₀ h2d).mp (by rw [neg_div]; exact l : -1 / (2 * (D : ℚ)) < p - q)
    linarith
  generalize ⌊p + 1 / 2⌋ = r at *
  have m1 : (D : ℚ) * r ≤ (D : ℚ) * (p + 1 / 2) := mul_le_mul_of_nonneg_left h1 hd.le
  have m2 : (D : ℚ) * (p + 1 / 2) < (D : ℚ) * (r + 1) := mul_lt_mul_of_pos_left h2 hd
  by_contra hcon
  rcases lt_abs.mp (not_le.mp hcon) with hc | hc
  · -- q < r - 1/2
    have hq : (D : ℚ) * q < (D : ℚ) * ((r : ℚ) - 1 / 2) := mul_lt_mul_of_pos_left (by linarith) hd
    have hint : (K : ℚ) < ((2 * D * r - D : Int) : ℚ) := by
      push_cast
      rw [← hK]
      linarith
    have hint' : K + 1 ≤ 2 * D * r - D := by
      have : K < 2 * D * r - D := by exact_mod_cast hint
      omega
    have hint'' : (K : ℚ) + 1 ≤ 2 * (D : ℚ) * r - D := by exact_mod_cast hint'
    rw [← hK] at hint''
    nlinarith
  · -- r + 1/2 < q
    have hq : (D : ℚ) * ((r : ℚ) + 1 / 2) < (D : ℚ) * q := mul_lt_mul_of_pos_left (by linarith) hd
    have hint : ((2 * D * r + D : Int) : ℚ) < (K : ℚ) := by
      push_cast
      rw [← hK]
      linarith
    have hint' : 2 * D * r + D + 1 ≤ K := by
      have : 2 * D * r + D < K := by exact_mod_cast hint
      omega
    have hint'' : 2 * (D : ℚ) * r + D + 1 ≤ (K : ℚ) := by exact_mod_cast hint'
    rw [← hK] at hint''
    nlinarith


theorem stdRound_nonneg (p : ℚ) (hp : 0 ≤ p) : 0 ≤ stdRound p := by
  unfold stdRound
  rw [if_pos hp, Int.floor_nonneg]
  linarith

theorem stdRound_le_of_lt (p : ℚ) (n : Int) (hp : 0 ≤ p) (h : p < n + 1 / 2) :
    stdRound p ≤ n := by
  unfold stdRound
  rw [if_pos hp]
  have hlt : ⌊p + 1 / 2⌋ < n + 1 := by
    rw [Int.floor_lt]
    push_cast
    linarith
  omega

theorem toInt_round_fin (p : ℚ) (hp : 0 ≤ p) (h : p < 2147483647) :
    Dbl.toInt (Dbl.round (Dbl.fin p)) = stdRound p := by
  have h0 := stdRound_nonneg p hp
  have h1 := stdRound_le_of_lt p 2147483647 hp (by push_cast; linarith)
  have c0 : (0 : ℚ) ≤ (stdRound p : Int) := by exact_mod_cast h0
  have c1 : ((stdRound p : Int) : ℚ) ≤ 2147483647 := by exact_mod_cast h1
  simp only [Dbl.round, Dbl.toInt]
  rw [if_pos ⟨by linarith, by linarith⟩, if_pos c0, Int.floor_intCast]

theorem dbl_min_fin (a b : ℚ) : Dbl.min (Dbl.fin a) (Dbl.fin b) = Dbl.fin (min a b) := by
  simp only [Dbl.min, Dbl.lt, decide_eq_true_eq]
  rcases lt_or_le b a with h | h
  · rw [if_pos h, min_eq_right h.le]
  · rw [if_neg (not_lt.mpr h), min_eq_left h]

/-- For positive sizes the computation stays in the finite doubles: the results are
the rounded `double` products, which are within `2^-42` of the exactly scaled sizes. -/
theorem resizeImageRaw_explicit (w h : Int) (hw : 1 ≤ w) (hh : 1 ≤ h) :
    resizeImageRaw w h
      = (stdRound (fl ((w : ℚ) * min (fl ((360 : ℚ) / w)) (fl ((180 : ℚ) / h)))),
         stdRound (fl ((h : ℚ) * min (fl ((360 : ℚ) / w)) (fl ((180 : ℚ) / h))))) ∧
      0 ≤ fl ((w : ℚ) * min (fl ((360 : ℚ) / w)) (fl ((180 : ℚ) / h))) ∧
      0 ≤ fl ((h : ℚ) * min (fl ((360 : ℚ) / w)) (fl ((180 : ℚ) / h))) ∧
      |fl ((w : ℚ) * min (fl ((360 : ℚ) / w)) (fl ((180 : ℚ) / h)))
        - (w : ℚ) * min ((360 : ℚ) / w) ((180 : ℚ) / h)| ≤ 1 / 2 ^ 42 ∧
      |fl ((h : ℚ) * min (fl ((360 : ℚ) / w)) (fl ((180 : ℚ) / h)))
        - (h : ℚ) * min ((360 : ℚ) / w) ((180 : ℚ) / h)| ≤ 1 / 2 ^ 42 ∧
      (w : ℚ) * min ((360 : ℚ) / w) ((180 : ℚ) / h) ≤ 360 ∧
      (h : ℚ) * min ((360 : ℚ) / w) ((180 : ℚ) / h) ≤ 180 := by
  have hwq : (0 : ℚ) < w := by exact_mod_cast (by omega : (0 : Int) < w)
  have hhq : (0 : ℚ) < h := by exact_mod_cast (by omega : (0 : Int) < h)
  have ha : (0 : ℚ) < 360 / w := div_pos (by norm_num) hwq
  have hb : (0 : ℚ) < 180 / h := div_pos (by norm_num) hhq
  have hs : (0 : ℚ) < min ((360 : ℚ) / w) ((180 : ℚ) / h) := lt_min ha hb
  obtain ⟨lo, hi⟩ := scale_bounds _ _ ha hb
  have qw : (w : ℚ) * min ((360 : ℚ) / w) ((180 : ℚ) / h) ≤ 360 := by
    calc (w : ℚ) * min ((360 : ℚ) / w) ((180 : ℚ) / h)
        ≤ (w : ℚ) * (360 / w) := mul_le_mul_of_nonneg_left (min_le_left _ _) hwq.le
      _ = 360 := by field_simp
  have qh : (h : ℚ) * min ((360 : ℚ) / w) ((180 : ℚ) / h) ≤ 180 := by
    calc (h : ℚ) * min ((360 : ℚ) / w) ((180 : ℚ) / h)
        ≤ (h : ℚ) * (180 / h) := mul_le_mul_of_nonneg_left (min_le_right _ _) hhq.le
      _ = 180 := by field_simp
  obtain ⟨pw0, pwe⟩ := product_err (w : ℚ) _ _ hwq hs lo hi qw
  obtain ⟨ph0, phe⟩ := product_err (h : ℚ) _ _ hhq hs lo hi (by linarith)
  refine ⟨?_, pw0, ph0, pwe, phe, qw, qh⟩
  have hw0 : w ≠ 0 := by omega
  have hh0 : h ≠ 0 := by omega
  have bw := (abs_le.mp pwe).2
  have bh := (abs_le.mp phe).2
  have tw := toInt_round_fin _ pw0 (by norm_num at bw ⊢; linarith)
  have th := toInt_round_fin _ ph0 (by norm_num at bh ⊢; linarith)
  simp only [resizeImageRaw, Dbl.divInt, TARGET_WIDTH, TARGET_HEIGHT, if_neg hw0, if_neg hh0,
    dbl_min_fin, Dbl.mulInt]
  push_cast
  rw [tw, th]

theorem resizeImageRaw_analysis (w h : Int) (hw : 1 ≤ w) (hh : 1 ≤ h) :
    ∃ pw ph : ℚ, resizeImageRaw w h = (stdRound pw, stdRound ph) ∧
      0 ≤ pw ∧ 0 ≤ ph ∧
      |pw - (w : ℚ) * min ((360 : ℚ) / w) ((180 : ℚ) / h)| ≤ 1 / 2 ^ 42 ∧
      |ph - (h : ℚ) * min ((360 : ℚ) / w) ((180 : ℚ) / h)| ≤ 1 / 2 ^ 42 ∧
      (w : ℚ) * min ((360 : ℚ) / w) ((180 : ℚ) / h) ≤ 360 ∧
      (h : ℚ) * min ((360 : ℚ) / w) ((180 : ℚ) / h) ≤ 180 :=
  ⟨_, _, resizeImageRaw_explicit w h hw hh⟩

/-- A rounded product that is close to an integer value is that integer. -/
theorem stdRound_eq_of_close (p : ℚ) (z : Int) (hp : 0 ≤ p) (h : |p - (z : ℚ)| ≤ 1 / 2 ^ 42) :
    stdRound p = z := by
  have hc := stdRound_close p z 1 (2 * z) (by decide) (by push_cast; ring) hp
    (lt_of_le_of_lt h (by norm_num))
  obtain ⟨l, u⟩ := abs_le.mp hc
  have h1 : ((stdRound p : Int) : ℚ) < ((z + 1 : Int) : ℚ) := by push_cast; linarith
  have h2 : ((z - 1 : Int) : ℚ) < ((stdRound p : Int) : ℚ) := by push_cast; linarith
  have h1' : stdRound p < z + 1 := by exact_mod_cast h1
  have h2' : z - 1 < stdRound p := by exact_mod_cast h2
  omega

/-! ### Halfway cases

The exactly scaled height of a 528 x 11 input and the exactly scaled width of an
11 x 264 input are `7.5`, which exact arithmetic would round to `8`.  In `double` the
scale factor `15/22` is rounded down, its product with `11` falls below `7.5`, and
the output is `7`. -/

theorem binade_eq (q : ℚ) (e : Int) (hq : 0 < q) (h1 : (2 : ℚ) ^ e ≤ q)
    (h2 : q < (2 : ℚ) ^ (e + 1)) : Int.log 2 |q| = e := by
  rw [abs_of_pos hq]
  have a : e ≤ Int.log 2 q := by
    rw [← Int.zpow_le_iff_le_log (by norm_num) hq]
    simpa using h1
  have b : Int.log 2 q < e + 1 := by
    rw [← Int.lt_zpow_iff_log_lt (by norm_num) hq]
    simpa using h2
  omega

theorem roundHalfEven_eq (r : ℚ) (z : Int) (h1 : (z : ℚ) - 1 / 2 < r)
    (h2 : r < (z : ℚ) + 1 / 2) : roundHalfEven r = z := by
  have f1 := Int.floor_le r
  have f2 := Int.lt_floor_add_one r
  unfold roundHalfEven
  generalize ⌊r⌋ = f at *
  have key : ∀ a b : Int, (a : ℚ) < (b : ℚ) + 1 → a ≤ b := by
    intro a b hab
    have : (a : ℚ) < ((b + 1 : Int) : ℚ) := by push_cast; exact hab
    have : a < b + 1 := by exact_mod_cast this
    omega
  split_ifs with c1 c2
  · have u := key f z (by linarith)
    have l := key z f (by linarith)
    omega
  · have u := key (f + 1) z (by push_cast; linarith)
    have l := key z (f + 1) (by push_cast; linarith)
    omega
  · exfalso
    have u := key f (z - 1) (by push_cast; linarith)
    have l := key z f (by linarith)
    omega
  · exfalso
    have u := key f (z - 1) (by push_cast; linarith)
    have l := key z f (by linarith)
    omega

theorem fl_eq_of (q : ℚ) (e z : Int) (hq : 0 < q) (h1 : (2 : ℚ) ^ e ≤ q)
    (h2 : q < (2 : ℚ) ^ (e + 1))
    (hz1 : (z : ℚ) - 1 / 2 < q / ((2 : ℚ) ^ e / 2 ^ 52))
    (hz2 : q / ((2 : ℚ) ^ e / 2 ^ 52) < (z : ℚ) + 1 / 2) :
    fl q = (z : ℚ) * ((2 : ℚ) ^ e / 2 ^ 52) := by
  unfold fl ulp
  rw [if_neg hq.ne', binade_eq q e hq h1 h2, roundHalfEven_eq _ z hz1 hz2]

theorem fl_scale_528 : fl ((15 : ℚ) / 22) = 6141272219141585 / 2 ^ 53 := by
  rw [fl_eq_of (15 / 22) (-1) 6141272219141585 (by norm_num) (by norm_num) (by norm_num)
    (by norm_num) (by norm_num)]
  norm_num

theorem fl_height_528 :
    fl (11 * ((6141272219141585 : ℚ) / 2 ^ 53)) = 8444249301319679 / 2 ^ 50 := by
  rw [fl_eq_of _ 2 8444249301319679 (by norm_num) (by norm_num) (by norm_num)
    (by norm_num) (by norm_num)]
  norm_num

/-- A 528 x 11 input gives 360 x 7: the halfway case `7.5` comes out as `7`. -/
theorem resizeImageDims_528_11 : resizeImageDims 528 11 = (360, 7) := by
  obtain ⟨hraw, pw0, _, ew, _, _, _⟩ := resizeImageRaw_explicit 528 11 (by decide) (by decide)
  have hmin : min (fl ((360 : ℚ) / ((528 : Int) : ℚ))) (fl ((180 : ℚ) / ((11 : Int) : ℚ)))
      = 6141272219141585 / 2 ^ 53 := by
    have ea : (360 : ℚ) / ((528 : Int) : ℚ) = 15 / 22 := by norm_num
    have lb := (fl_bounds ((180 : ℚ) / ((11 : Int) : ℚ)) (by norm_num)).1
    rw [ea, fl_scale_528]
    apply min_eq_left
    norm_num at lb ⊢
    linarith
  have e360 : ((528 : Int) : ℚ) * min ((360 : ℚ) / ((528 : Int) : ℚ))
      ((180 : ℚ) / ((11 : Int) : ℚ)) = ((360 : Int) : ℚ) := by
    rw [min_eq_left (by norm_num)]
    norm_num
  rw [e360] at ew
  have rw' := stdRound_eq_of_close _ 360 pw0 ew
  have rh' : stdRound (fl (((11 : Int) : ℚ) * min (fl ((360 : ℚ) / ((528 : Int) : ℚ)))
      (fl ((180 : ℚ) / ((11 : Int) : ℚ))))) = 7 := by
    rw [hmin]
    have e11 : ((11 : Int) : ℚ) = 11 := by norm_num
    rw [e11, fl_height_528]
    unfold stdRound
    rw [if_pos (by norm_num), Int.floor_eq_iff]
    constructor <;> norm_num
  simp only [resizeImageDims, hraw, rw', rh']
  rfl


/-- An 11 x 264 input gives 7 x 180: the halfway case `7.5` comes out as `7`. -/
theorem resizeImageDims_11_264 : resizeImageDims 11 264 = (7, 180) := by
  obtain ⟨hraw, _, ph0, _, eh, _, _⟩ := resizeImageRaw_explicit 11 264 (by decide) (by decide)
  have hmin : min (fl ((360 : ℚ) / ((11 : Int) : ℚ))) (fl ((180 : ℚ) / ((264 : Int) : ℚ)))
      = 6141272219141585 / 2 ^ 53 := by
    have eb : (180 : ℚ) / ((264 : Int) : ℚ) = 15 / 22 := by norm_num
    have la := (fl_bounds ((360 : ℚ) / ((11 : Int) : ℚ)) (by norm_num)).1
    rw [eb, fl_scale_528]
    apply min_eq_right
    norm_num at la ⊢
    linarith
  have e180 : ((264 : Int) : ℚ) * min ((360 : ℚ) / ((11 : Int) : ℚ))
      ((180 : ℚ) / ((264 : Int) : ℚ)) = ((180 : Int) : ℚ) := by
    rw [min_eq_right (by norm_num)]
    norm_num
  rw [e180] at eh
  have rh' := stdRound_eq_of_close _ 180 ph0 eh
  have rw' : stdRound (fl (((11 : Int) : ℚ) * min (fl ((360 : ℚ) / ((11 : Int) : ℚ)))
      (fl ((180 : ℚ) / ((264 : Int) : ℚ))))) = 7 := by
    rw [hmin]
    have e11 : ((11 : Int) : ℚ) = 11 := by norm_num
    rw [e11, fl_height_528]
    unfold stdRound
    rw [if_pos (by norm_num), Int.floor_eq_iff]
    constructor <;> norm_num
  simp only [resizeImageDims, hraw, rw', rh']
  rfl

/-- C6: for every input size `w ≥ 1`, `h ≥ 1` and the target box 360 x 180, the
output dimensions of `resizeImage`, computed in `double` as the code does, satisfy
`1 ≤ outW ≤ 360`, `1 ≤ outH ≤ 180` and `outW = 360 ∨ outH = 180`; an 8 x 8 input
gives 180 x 180. -/
theorem resizeImageDims_fit (w h : Int) (hw : 1 ≤ w) (hh : 1 ≤ h) :
    1 ≤ (resizeImageDims w h).1 ∧ (resizeImageDims w h).1 ≤ 360 ∧
    1 ≤ (resizeImageDims w h).2 ∧ (resizeImageDims w h).2 ≤ 180 ∧
    ((resizeImageDims w h).1 = 360 ∨ (resizeImageDims w h).2 = 180) ∧
    resizeImageDims 8 8 = (180, 180) := by
  have h88 : resizeImageDims 8 8 = (180, 180) := by
    obtain ⟨pw, ph, hraw, pw0, ph0, ew, eh, _, _⟩ :=
      resizeImageRaw_analysis 8 8 (by decide) (by decide)
    have e : ((8 : Int) : ℚ) * min ((360 : ℚ) / (8 : Int)) ((180 : ℚ) / (8 : Int))
        = ((180 : Int) : ℚ) := by
      rw [min_eq_right (by norm_num)]
      norm_num
    rw [e] at ew eh
    have rw' := stdRound_eq_of_close pw 180 pw0 ew
    have rh' := stdRound_eq_of_close ph 180 ph0 eh
    simp only [resizeImageDims, hraw, rw', rh']
    rfl
  obtain ⟨pw, ph, hraw, pw0, ph0, ew, eh, qw, qh⟩ := resizeImageRaw_analysis w h hw hh
  have hwq : (0 : ℚ) < w := by exact_mod_cast (by omega : (0 : Int) < w)
  have hhq : (0 : ℚ) < h := by exact_mod_cast (by omega : (0 : Int) < h)
  have bw := (abs_le.mp ew).2
  have bh := (abs_le.mp eh).2
  have uw : stdRound pw ≤ 360 :=
    stdRound_le_of_lt pw 360 pw0 (by norm_num at bw ⊢; linarith)
  have uh : stdRound ph ≤ 180 :=
    stdRound_le_of_lt ph 180 ph0 (by norm_num at bh ⊢; linarith)
  have e1 : (resizeImageDims w h).1 = max 1 (stdRound pw) := by
    simp only [resizeImageDims, hraw]
  have e2 : (resizeImageDims w h).2 = max 1 (stdRound ph) := by
    simp only [resizeImageDims, hraw]
  rw [e1, e2]
  refine ⟨le_max_left _ _, max_le (by decide) uw, le_max_left _ _, max_le (by decide) uh,
    ?_, h88⟩
  rcases le_total ((360 : ℚ) / w) ((180 : ℚ) / h) with hle | hle
  · left
    have e : (w : ℚ) * min ((360 : ℚ) / w) ((180 : ℚ) / h) = ((360 : Int) : ℚ) := by
      rw [min_eq_left hle]
      push_cast
      field_simp
    rw [e] at ew
    rw [stdRound_eq_of_close pw 360 pw0 ew]
    rfl
  · right
    have e : (h : ℚ) * min ((360 : ℚ) / w) ((180 : ℚ) / h) = ((180 : Int) : ℚ) := by
      rw [min_eq_right hle]
      push_cast
      field_simp
    rw [e] at eh
    rw [stdRound_eq_of_close ph 180 ph0 eh]
    rfl

/-- Instance of the dimension bounds for a 528 x 11 input, whose exactly scaled height
`7.5` is a halfway case. -/
theorem resizeImageDims_fit_witness :
    1 ≤ (resizeImageDims 528 11).1 ∧ (resizeImageDims 528 11).1 ≤ 360 ∧
    1 ≤ (resizeImageDims 528 11).2 ∧ (resizeImageDims 528 11).2 ≤ 180 ∧
    ((resizeImageDims 528 11).1 = 360 ∨ (resizeImageDims 528 11).2 = 180) ∧
    resizeImageDims 8 8 = (180, 180) :=
  resizeImageDims_fit 528 11 (by decide) (by decide)

/-! ## The red-square scenario -/

set_option maxRecDepth 100000 in
theorem scenario_wellFormed : WellFormed scenarioImage 10 10 3 := by decide

set_option maxRecDepth 100000 in
theorem scenario_pixelAt : ∀ x, x < 10 → ∀ y, y < 10 →
    pixelAt scenarioImage 10 3 x y =
      if 1 ≤ x ∧ x ≤ 8 ∧ 1 ≤ y ∧ y ≤ 8 then red else white := by
  decide

set_option maxRecDepth 100000 in
theorem scenario_count_red :
    (countedPixels scenarioImage 10 10 3).count red = 64 ∧
      (countedPixels scenarioImage 10 10 3).length = 100 := by
  decide

theorem count_add_count_le_length (l : List ColorRGBA) (a b : ColorRGBA) (hab : a ≠ b) :
    l.count a + l.count b ≤ l.length := by
  induction l with
  | nil => simp
  | cons c rest ih =>
    rw [List.count_cons, List.count_cons, List.length_cons]
    by_cases hca : c = a
    · subst hca
      have hcb : (c == b) = false := by rw [beq_eq_false_iff_ne]; exact hab
      have hcc : (c == c) = true := by rw [beq_iff_eq]
      rw [hcb, hcc, if_pos rfl, if_neg (by decide)]
      omega
    · have hca' : (c == a) = false := by rw [beq_eq_false_iff_ne]; exact hca
      rw [hca', if_neg (by decide)]
      by_cases hcb : (c == b) = true
      · rw [if_pos hcb]; omega
      · rw [if_neg hcb]; omega

/-- In the scenario red is the estimated background colour. -/
theorem scenario_background : findBackgroundColor scenarioImage 10 10 3 = some red := by
  obtain ⟨s, hrun, hinv⟩ :=
    findBackgroundColor_spec scenarioImage 10 10 3 scenario_wellFormed (Or.inl rfl)
  have hne : countedPixels scenarioImage 10 10 3 ≠ [] := by
    intro e
    have := scenario_count_red.2
    rw [e] at this
    exact absurd this (by decide)
  obtain ⟨_, hcnt, _⟩ := hinv.leader hne
  have hred := hinv.maxle red
  rw [scenario_count_red.1] at hred
  have hs : s.backgroundColor = red := by
    by_contra hk
    have := count_add_count_le_length (countedPixels scenarioImage 10 10 3) _ _ hk
    rw [scenario_count_red.1, scenario_count_red.2, hcnt] at this
    omega
  rw [hrun, hs]

set_option maxRecDepth 100000 in
theorem scenario_content_red :
    IsContent scenarioImage 10 10 3 red 0 0 ∧ IsContent scenarioImage 10 10 3 red 9 9 := by
  decide

set_option maxRecDepth 100000 in
theorem scenario_content_white :
    IsContent scenarioImage 10 10 3 white 1 1 ∧ IsContent scenarioImage 10 10 3 white 8 8 := by
  decide

/-- With red as background the content of the scenario image reaches all four borders. -/
theorem scenario_box_red :
    findContentBoundingBox scenarioImage 10 10 3 red
      = some { top := 0, left := 0, bottom := 9, right := 9 } := by
  obtain ⟨bbox, hrun, _, htight⟩ :=
    findContentBoundingBox_spec scenarioImage 10 10 3 red scenario_wellFormed (Or.inl rfl)
  have h := (htight ⟨0, 0, scenario_content_red.1⟩).eq_of_attained 0 0 9 9
    (fun x y hcont => ⟨Nat.zero_le _, by have := hcont.1; omega, Nat.zero_le _,
      by have := hcont.2.1; omega⟩)
    ⟨0, scenario_content_red.1⟩ ⟨9, scenario_content_red.2⟩
    ⟨0, scenario_content_red.1⟩ ⟨9, scenario_content_red.2⟩
  rw [hrun, h]
  rfl

/-- With white as background the content of the scenario image is the red square. -/
theorem scenario_box_white :
    findContentBoundingBox scenarioImage 10 10 3 white
      = some { top := 1, left := 1, bottom := 8, right := 8 } := by
  obtain ⟨bbox, hrun, _, htight⟩ :=
    findContentBoundingBox_spec scenarioImage 10 10 3 white scenario_wellFormed (Or.inl rfl)
  have hin : ∀ x y, IsContent scenarioImage 10 10 3 white x y →
      1 ≤ x ∧ x ≤ 8 ∧ 1 ≤ y ∧ y ≤ 8 := by
    rintro x y ⟨hx, hy, hnb⟩
    by_contra hout
    apply hnb
    left
    rw [scenario_pixelAt x hx y hy, if_neg hout]
  have h := (htight ⟨1, 1, scenario_content_white.1⟩).eq_of_attained 1 1 8 8 hin
    ⟨1, scenario_content_white.1⟩ ⟨8, scenario_content_white.2⟩
    ⟨1, scenario_content_white.1⟩ ⟨8, scenario_content_white.2⟩
  rw [hrun, h]
  rfl

/-- C4, as stated, fails: in the scenario image the 64 red pixels outnumber the 36
white ones, so the estimated background colour is not white. -/
theorem scenario_estimate_not_white :
    ¬ (findBackgroundColor scenarioImage 10 10 3 = some ⟨255, 255, 255, 255⟩ ∧
      ∃ bg, findBackgroundColor scenarioImage 10 10 3 = some bg ∧
        findContentBoundingBox scenarioImage 10 10 3 bg
          = some { top := 1, left := 1, bottom := 8, right := 8 }) := by
  rintro ⟨h, _⟩
  rw [scenario_background] at h
  exact absurd h (by decide)

/-- C4, amended: for the scenario image `findBackgroundColor` returns red
`(255,0,0,255)`, the most frequent colour; `findContentBoundingBox` with that
estimated colour returns the whole image `top = 0, left = 0, bottom = 9, right = 9`,
and with white as the background colour it returns
`top = 1, left = 1, bottom = 8, right = 8`. -/
theorem scenario_estimate_and_boxes :
    findBackgroundColor scenarioImage 10 10 3 = some ⟨255, 0, 0, 255⟩ ∧
    findContentBoundingBox scenarioImage 10 10 3 ⟨255, 0, 0, 255⟩
      = some { top := 0, left := 0, bottom := 9, right := 9 } ∧
    findContentBoundingBox scenarioImage 10 10 3 ⟨255, 255, 255, 255⟩
      = some { top := 1, left := 1, bottom := 8, right := 8 } :=
  ⟨scenario_background, scenario_box_red, scenario_box_white⟩

/-! ## Geometry of the detected box -/

/-- C16: on a well-formed buffer, whenever the box returned by
`findContentBoundingBox` is non-empty (its width or its height is positive) it
satisfies `0 ≤ left ≤ right < width` and `0 ≤ top ≤ bottom < height`. -/
theorem findContentBoundingBox_in_bounds (pixels : List Nat) (width height channels : Nat)
    (bg : ColorRGBA) (hwf : WellFormed pixels width height channels)
    (hc : channels = 3 ∨ channels = 4) :
    ∃ B, findContentBoundingBox pixels width height channels bg = some B ∧
      (0 < B.width ∨ 0 < B.height →
        0 ≤ B.left ∧ B.left ≤ B.right ∧ B.right < width ∧
        0 ≤ B.top ∧ B.top ≤ B.bottom ∧ B.bottom < height) := by
  obtain ⟨B, hrun, hempty, htight⟩ :=
    findContentBoundingBox_spec pixels width height channels bg hwf hc
  refine ⟨B, hrun, ?_⟩
  intro hpos
  by_cases hne : ∃ x y, IsContent pixels width height channels bg x y
  · obtain ⟨l, t, r, b, rfl, hlr, hr, htb, hb⟩ := (htight hne).sides
    dsimp only
    omega
  · rw [hempty hne] at hpos
    exact absurd hpos (by decide)

/-- Instance of the in-bounds theorem on the 4x1 image `A B B A` with background `A`. -/
theorem findContentBoundingBox_in_bounds_witness :
    ∃ B, findContentBoundingBox tieImage 4 1 3 ⟨1, 2, 3, 255⟩ = some B ∧
      (0 < B.width ∨ 0 < B.height →
        0 ≤ B.left ∧ B.left ≤ B.right ∧ B.right < (4 : Nat) ∧
        0 ≤ B.top ∧ B.top ≤ B.bottom ∧ B.bottom < (1 : Nat)) :=
  findContentBoundingBox_in_bounds tieImage 4 1 3 ⟨1, 2, 3, 255⟩ (by decide) (Or.inl rfl)

/-- Two well-formed buffers of the same size with the same content pixels have the
same bounding box. -/
theorem findContentBoundingBox_eq_of_content (p p' : List Nat)
    (width height channels channels' : Nat) (bg bg' : ColorRGBA)
    (hwf : WellFormed p width height channels) (hc : channels = 3 ∨ channels = 4)
    (hwf' : WellFormed p' width height channels') (hc' : channels' = 3 ∨ channels' = 4)
    (hiff : ∀ x y, IsContent p width height channels bg x y ↔
      IsContent p' width height channels' bg' x y) :
    findContentBoundingBox p width height channels bg
      = findContentBoundingBox p' width height channels' bg' := by
  obtain ⟨B, hrun, hempty, htight⟩ :=
    findContentBoundingBox_spec p width height channels bg hwf hc
  obtain ⟨B', hrun', hempty', htight'⟩ :=
    findContentBoundingBox_spec p' width height channels' bg' hwf' hc'
  rw [hrun, hrun']
  by_cases hne : ∃ x y, IsContent p width height channels bg x y
  · have hne' : ∃ x y, IsContent p' width height channels' bg' x y := by
      obtain ⟨x, y, h⟩ := hne
      exact ⟨x, y, (hiff x y).mp h⟩
    have ht := htight hne
    obtain ⟨l, t, r, b, rfl, _, _, _, _⟩ := ht.sides
    obtain ⟨x1, y1, c1, e1⟩ := ht.left
    obtain ⟨x2, y2, c2, e2⟩ := ht.right
    obtain ⟨x3, y3, c3, e3⟩ := ht.top
    obtain ⟨x4, y4, c4, e4⟩ := ht.bottom
    dsimp only at e1 e2 e3 e4
    have f1 : x1 = l := by omega
    have f2 : x2 = r := by omega
    have f3 : y3 = t := by omega
    have f4 : y4 = b := by omega
    subst f1 f2 f3 f4
    have hB' := (htight' hne').eq_of_attained x1 y3 x2 y4
      (fun x y hcont => by
        have := ht.encl x y ((hiff x y).mpr hcont)
        dsimp only at this
        omega)
      ⟨y1, (hiff _ _).mp c1⟩ ⟨y2, (hiff _ _).mp c2⟩
      ⟨x3, (hiff _ _).mp c3⟩ ⟨x4, (hiff _ _).mp c4⟩
    rw [hB']
  · have hne' : ¬ ∃ x y, IsContent p' width height channels' bg' x y := by
      rintro ⟨x, y, h⟩
      exact hne ⟨x, y, (hiff x y).mpr h⟩
    rw [hempty hne, hempty' hne']

/-- C12: in a 4-channel buffer a pixel with alpha below `10` is background whatever
its `R, G, B`: a second buffer that differs from the first only in the `R, G, B` of
pixels whose alpha is below `10` gives the same result of `findContentBoundingBox`
for every background colour, and a buffer whose pixels all have alpha below `10`
gives the empty box for every background colour. -/
theorem findContentBoundingBox_near_transparent (p p' : List Nat) (width height : Nat)
    (bg : ColorRGBA) (hwf : WellFormed p width height 4) (hwf' : WellFormed p' width height 4)
    (hsame : ∀ x y, x < width → y < height →
      pixelAt p' width 4 x y = pixelAt p width 4 x y ∨
      ((pixelAt p' width 4 x y).a = (pixelAt p width 4 x y).a ∧
        (pixelAt p width 4 x y).a < 10)) :
    findContentBoundingBox p' width height 4 bg = findContentBoundingBox p width height 4 bg ∧
    ((∀ x y, x < width → y < height → (pixelAt p width 4 x y).a < 10) →
      findContentBoundingBox p width height 4 bg
        = some { top := 0, left := 0, bottom := -1, right := -1 }) := by
  constructor
  · apply findContentBoundingBox_eq_of_content p' p width height 4 4 bg bg hwf' (Or.inr rfl)
      hwf (Or.inr rfl)
    intro x y
    unfold IsContent IsBackground
    constructor
    · rintro ⟨hx, hy, hnb⟩
      refine ⟨hx, hy, ?_⟩
      rcases hsame x y hx hy with e | ⟨e, hlt⟩
      · rw [← e]; exact hnb
      · exact absurd (Or.inr ⟨rfl, by omega⟩) hnb
    · rintro ⟨hx, hy, hnb⟩
      refine ⟨hx, hy, ?_⟩
      rcases hsame x y hx hy with e | ⟨e, hlt⟩
      · rw [e]; exact hnb
      · exact absurd (Or.inr ⟨rfl, hlt⟩) hnb
  · intro hall
    obtain ⟨B, hrun, hempty, _⟩ := findContentBoundingBox_spec p width height 4 bg hwf
      (Or.inr rfl)
    rw [hrun, hempty]
    · rfl
    · rintro ⟨x, y, hx, hy, hnb⟩
      exact hnb (Or.inr ⟨rfl, hall x y hx hy⟩)

/-- Instance of the near-transparent rule: a 2x1 image whose first pixel has alpha `5`,
with two different `R, G, B` values for that pixel. -/
theorem findContentBoundingBox_near_transparent_witness :
    findContentBoundingBox [9, 9, 9, 5, 4, 5, 6, 255] 2 1 4 ⟨1, 2, 3, 255⟩
      = findContentBoundingBox [1, 2, 3, 5, 4, 5, 6, 255] 2 1 4 ⟨1, 2, 3, 255⟩ ∧
    ((∀ x y, x < 2 → y < 1 → (pixelAt [1, 2, 3, 5, 4, 5, 6, 255] 2 4 x y).a < 10) →
      findContentBoundingBox [1, 2, 3, 5, 4, 5, 6, 255] 2 1 4 ⟨1, 2, 3, 255⟩
        = some { top := 0, left := 0, bottom := -1, right := -1 }) :=
  findContentBoundingBox_near_transparent [1, 2, 3, 5, 4, 5, 6, 255]
    [9, 9, 9, 5, 4, 5, 6, 255] 2 1 ⟨1, 2, 3, 255⟩ (by decide) (by decide)
    (fun x y hx hy =>
      (by decide : ∀ x, x < 2 → ∀ y, y < 1 →
        (pixelAt [9, 9, 9, 5, 4, 5, 6, 255] 2 4 x y = pixelAt [1, 2, 3, 5, 4, 5, 6, 255] 2 4 x y ∨
        ((pixelAt [9, 9, 9, 5, 4, 5, 6, 255] 2 4 x y).a
            = (pixelAt [1, 2, 3, 5, 4, 5, 6, 255] 2 4 x y).a ∧
          (pixelAt [1, 2, 3, 5, 4, 5, 6, 255] 2 4 x y).a < 10))) x hx y hy)

/-! ## Failure and safety of the crop -/

theorem isValid_false_iff (bbox : BoundingBox) :
    bbox.isValid = false ↔ bbox.width = 0 ∨ bbox.height = 0 := by
  have hw : 0 ≤ bbox.width := by
    unfold BoundingBox.width
    split_ifs <;> omega
  have hh : 0 ≤ bbox.height := by
    unfold BoundingBox.height
    split_ifs <;> omega
  unfold BoundingBox.isValid
  rw [Bool.and_eq_false_iff, decide_eq_false_iff_not, decide_eq_false_iff_not]
  constructor
  · rintro (h | h)
    · left; omega
    · right; omega
  · rintro (h | h)
    · left; omega
    · right; omega

theorem trimImage_of_invalid (alloc : Nat → Option (List Nat)) (pixels : List Nat)
    (width channels : Nat) (bbox : BoundingBox) (h : bbox.isValid = false) :
    trimImage alloc pixels width channels bbox
      = some { pixels := none, outWidth := bbox.width, outHeight := bbox.height } := by
  unfold trimImage
  simp [h]

theorem trimImage_of_alloc_none (alloc : Nat → Option (List Nat)) (pixels : List Nat)
    (width channels : Nat) (bbox : BoundingBox)
    (h : alloc (bbox.width.toNat * bbox.height.toNat * 4) = none) :
    trimImage alloc pixels width channels bbox
      = some { pixels := none, outWidth := bbox.width, outHeight := bbox.height } := by
  unfold trimImage
  by_cases hv : bbox.isValid = true
  · simp [hv, h]
  · simp [hv]

/-- C15: `trimImage` applied to a box that is not valid, that is with `width() = 0`
or `height() = 0`, returns no buffer (`nullptr`) and reports `box.width()` and
`box.height()` as output dimensions; for a box inside a well-formed buffer with
`left ≤ right` and `top ≤ bottom`, when the allocation succeeds, it returns a buffer. -/
theorem trimImage_invalid_box (alloc : Nat → Option (List Nat)) (pixels : List Nat)
    (width height channels : Nat) (bbox : BoundingBox)
    (hwf : WellFormed pixels width height channels) (hc : channels = 3 ∨ channels = 4) :
    (bbox.isValid = false ↔ bbox.width = 0 ∨ bbox.height = 0) ∧
    (bbox.width = 0 ∨ bbox.height = 0 →
      trimImage alloc pixels width channels bbox
        = some { pixels := none, outWidth := bbox.width, outHeight := bbox.height }) ∧
    (0 ≤ bbox.left ∧ bbox.left ≤ bbox.right ∧ bbox.right < width ∧
      0 ≤ bbox.top ∧ bbox.top ≤ bbox.bottom ∧ bbox.bottom < height →
      ∀ buf0, alloc (bbox.width.toNat * bbox.height.toNat * 4) = some buf0 →
        buf0.length = bbox.width.toNat * bbox.height.toNat * 4 →
        ∃ out, trimImage alloc pixels width channels bbox
          = some { pixels := some out, outWidth := bbox.width, outHeight := bbox.height }) := by
  refine ⟨isValid_false_iff bbox, ?_, ?_⟩
  · intro h
    exact trimImage_of_invalid alloc pixels width channels bbox
      ((isValid_false_iff bbox).mpr h)
  · rintro ⟨hl, hlr, hr, ht, htb, hb⟩ buf0 halloc hbuf
    rcases bbox with ⟨t, l, b, r⟩
    dsimp only at hl hlr hr ht htb hb
    lift l to ℕ using hl
    lift t to ℕ using ht
    lift r to ℕ using (by omega)
    lift b to ℕ using (by omega)
    have hlr' : l ≤ r := by exact_mod_cast hlr
    have htb' : t ≤ b := by exact_mod_cast htb
    rw [width_natCast t l b r hlr', height_natCast t l b r htb'] at halloc hbuf ⊢
    simp only [Int.toNat_ofNat] at halloc hbuf
    obtain ⟨out, hrun, _, _⟩ := trimImage_nat alloc pixels width height channels l t r b
      buf0 hwf hc hlr' (by exact_mod_cast hr) htb' (by exact_mod_cast hb) halloc hbuf
    exact ⟨out, hrun⟩

/-- Instance of the invalid-box theorem: the empty box on the 4x1 image `A B B A`. -/
theorem trimImage_invalid_box_witness :
    ((BoundingBox.mk 0 0 (-1) (-1)).isValid = false ↔
      (BoundingBox.mk 0 0 (-1) (-1)).width = 0 ∨ (BoundingBox.mk 0 0 (-1) (-1)).height = 0) ∧
    ((BoundingBox.mk 0 0 (-1) (-1)).width = 0 ∨ (BoundingBox.mk 0 0 (-1) (-1)).height = 0 →
      trimImage allocZero tieImage 4 3 (BoundingBox.mk 0 0 (-1) (-1))
        = some { pixels := none, outWidth := (BoundingBox.mk 0 0 (-1) (-1)).width,
                 outHeight := (BoundingBox.mk 0 0 (-1) (-1)).height }) ∧
    (0 ≤ (BoundingBox.mk 0 0 (-1) (-1)).left ∧
      (BoundingBox.mk 0 0 (-1) (-1)).left ≤ (BoundingBox.mk 0 0 (-1) (-1)).right ∧
      (BoundingBox.mk 0 0 (-1) (-1)).right < (4 : Nat) ∧
      0 ≤ (BoundingBox.mk 0 0 (-1) (-1)).top ∧
      (BoundingBox.mk 0 0 (-1) (-1)).top ≤ (BoundingBox.mk 0 0 (-1) (-1)).bottom ∧
      (BoundingBox.mk 0 0 (-1) (-1)).bottom < (1 : Nat) →
      ∀ buf0, allocZero ((BoundingBox.mk 0 0 (-1) (-1)).width.toNat *
          (BoundingBox.mk 0 0 (-1) (-1)).height.toNat * 4) = some buf0 →
        buf0.length = (BoundingBox.mk 0 0 (-1) (-1)).width.toNat *
          (BoundingBox.mk 0 0 (-1) (-1)).height.toNat * 4 →
        ∃ out, trimImage allocZero tieImage 4 3 (BoundingBox.mk 0 0 (-1) (-1))
          = some { pixels := some out, outWidth := (BoundingBox.mk 0 0 (-1) (-1)).width,
                   outHeight := (BoundingBox.mk 0 0 (-1) (-1)).height }) :=
  trimImage_invalid_box allocZero tieImage 4 1 3 (BoundingBox.mk 0 0 (-1) (-1))
    (by decide) (Or.inl rfl)

/-- On a valid box returned by the detection, `trimImage` performs no access outside
its buffers, whatever the allocator does, as long as a successful allocation has
the requested size. -/
theorem trimImage_total_nat (alloc : Nat → Option (List Nat)) (pixels : List Nat)
    (width height channels l t r b : Nat)
    (hwf : WellFormed pixels width height channels) (hc : channels = 3 ∨ channels = 4)
    (hlr : l ≤ r) (hr : r < width) (htb : t ≤ b) (hb : b < height)
    (halloc : AllocOk alloc) :
    ∃ res, trimImage alloc pixels width channels (BoundingBox.mk t l b r) = some res ∧
      res.outWidth = ((r - l + 1 : Nat) : Int) ∧ res.outHeight = ((b - t + 1 : Nat) : Int) ∧
      (∀ out, res.pixels = some out → WellFormed out (r - l + 1) (b - t + 1) 4) := by
  cases ha : alloc ((r - l + 1) * (b - t + 1) * 4) with
  | none =>
    refine ⟨_, trimImage_of_alloc_none alloc pixels width channels _ ?_, ?_, ?_, ?_⟩
    · rw [width_natCast t l b r hlr, height_natCast t l b r htb]
      simp only [Int.toNat_ofNat]
      exact ha
    · exact width_natCast t l b r hlr
    · exact height_natCast t l b r htb
    · intro out h
      exact absurd h (by simp)
  | some buf0 =>
    obtain ⟨out, hrun, hlen, _⟩ := trimImage_nat alloc pixels width height channels l t r b
      buf0 hwf hc hlr hr htb hb ha (halloc _ _ ha)
    refine ⟨_, hrun, rfl, rfl, ?_⟩
    intro out' h
    have : out = out' := Option.some.inj h
    exact this ▸ hlen

/-- C19: on a well-formed buffer, when `findContentBoundingBox` returns a valid box,
every source sample offset `((top + y) * width + (left + x)) * channels + k` with
`k < channels` that `trimImage` reads for that box lies in `[0, width * height * channels)`,
every destination offset `(y * W + x) * 4 + k` with `k < 4` lies in `[0, W * H * 4)`
for `W = box.width()` and `H = box.height()`, and `trimImage` runs without an
out-of-range access. -/
theorem trimImage_in_range (alloc : Nat → Option (List Nat)) (pixels : List Nat)
    (width height channels : Nat) (bg : ColorRGBA) (B : BoundingBox)
    (hwf : WellFormed pixels width height channels) (hc : channels = 3 ∨ channels = 4)
    (hdet : findContentBoundingBox pixels width height channels bg = some B)
    (hvalid : B.isValid = true) (halloc : AllocOk alloc) :
    (∀ x y k : Nat, (x : Int) < B.width → (y : Int) < B.height → k < channels →
      0 ≤ ((B.top + y) * width + (B.left + x)) * channels + k ∧
      ((B.top + y) * width + (B.left + x)) * channels + k
        < ((width * height * channels : Nat) : Int)) ∧
    (∀ x y k : Nat, (x : Int) < B.width → (y : Int) < B.height → k < 4 →
      0 ≤ ((y : Int) * B.width + x) * 4 + k ∧
      ((y : Int) * B.width + x) * 4 + k < B.width * B.height * 4) ∧
    ∃ res, trimImage alloc pixels width channels B = some res := by
  obtain ⟨bbox, hrun, hempty, htight⟩ :=
    findContentBoundingBox_spec pixels width height channels bg hwf hc
  have hB : bbox = B := Option.some.inj (hrun.symm.trans hdet)
  subst hB
  have hne : ∃ x y, IsContent pixels width height channels bg x y := by
    by_contra hno
    rw [hempty hno] at hvalid
    exact absurd hvalid (by decide)
  obtain ⟨l, t, r, b, rfl, hlr, hr, htb, hb⟩ := (htight hne).sides
  rw [width_natCast t l b r hlr, height_natCast t l b r htb]
  refine ⟨?_, ?_, ?_⟩
  · intro x y k hx hy hk
    have hx' : x < r - l + 1 := by exact_mod_cast hx
    have hy' : y < b - t + 1 := by exact_mod_cast hy
    have hlt := sample_index_lt width height channels (l + x) (t + y) k (by omega) (by omega) hk
    have e : (((t : Int) + y) * width + ((l : Int) + x)) * channels + k
        = ((((t + y) * width + (l + x)) * channels + k : Nat) : Int) := by
      push_cast; ring
    dsimp only
    rw [e]
    exact ⟨Int.ofNat_nonneg _, by exact_mod_cast hlt⟩
  · intro x y k hx hy hk
    have hx' : x < r - l + 1 := by exact_mod_cast hx
    have hy' : y < b - t + 1 := by exact_mod_cast hy
    have hlt := sample_index_lt (r - l + 1) (b - t + 1) 4 x y k hx' hy' hk
    have e : ((y : Int) * ((r - l + 1 : Nat) : Int) + x) * 4 + k
        = (((y * (r - l + 1) + x) * 4 + k : Nat) : Int) := by
      push_cast; ring
    have e2 : (((r - l + 1 : Nat) : Int)) * ((b - t + 1 : Nat) : Int) * 4
        = (((r - l + 1) * (b - t + 1) * 4 : Nat) : Int) := by
      push_cast; ring
    rw [e, e2]
    exact ⟨Int.ofNat_nonneg _, by exact_mod_cast hlt⟩
  · obtain ⟨res, hres, _⟩ := trimImage_total_nat alloc pixels width height channels l t r b
      hwf hc hlr hr htb hb halloc
    exact ⟨res, hres⟩

theorem allocZero_ok : AllocOk allocZero := by
  intro n buf h
  have e : buf = List.replicate n 0 := (Option.some.inj h).symm
  rw [e, List.length_replicate]

/-- Instance of the in-range theorem: the box found on the 4x1 image `A B B A` with
background `A`. -/
theorem trimImage_in_range_witness :
    (∀ x y k : Nat, (x : Int) < (BoundingBox.mk 0 1 0 2).width →
      (y : Int) < (BoundingBox.mk 0 1 0 2).height → k < 3 →
      0 ≤ (((BoundingBox.mk 0 1 0 2).top + y) * (4 : Nat) +
          ((BoundingBox.mk 0 1 0 2).left + x)) * (3 : Nat) + k ∧
      (((BoundingBox.mk 0 1 0 2).top + y) * (4 : Nat) +
          ((BoundingBox.mk 0 1 0 2).left + x)) * (3 : Nat) + k
        < ((4 * 1 * 3 : Nat) : Int)) ∧
    (∀ x y k : Nat, (x : Int) < (BoundingBox.mk 0 1 0 2).width →
      (y : Int) < (BoundingBox.mk 0 1 0 2).height → k < 4 →
      0 ≤ ((y : Int) * (BoundingBox.mk 0 1 0 2).width + x) * 4 + k ∧
      ((y : Int) * (BoundingBox.mk 0 1 0 2).width + x) * 4 + k
        < (BoundingBox.mk 0 1 0 2).width * (BoundingBox.mk 0 1 0 2).height * 4) ∧
    ∃ res, trimImage allocZero tieImage 4 3 (BoundingBox.mk 0 1 0 2) = some res :=
  trimImage_in_range allocZero tieImage 4 1 3 ⟨1, 2, 3, 255⟩ (BoundingBox.mk 0 1 0 2)
    (by decide) (Or.inl rfl) (by decide) (by decide) allocZero_ok

/-! ## The leader of the background scan -/

/-- One iteration of the scan either keeps the leader and the running maximum, or
counts a colour whose new count is strictly greater than the running maximum and
makes that colour the leader. -/
theorem bgBody_leader (pixels : List Nat) (width channels y x : Nat) (s s' : BgScan)
    (h : bgBody pixels width channels y x s = some s') :
    (s'.backgroundColor = s.backgroundColor ∧ s'.maxCount = s.maxCount) ∨
    (∃ color, loadColor pixels (((y * width + x) * channels : Nat) : Int) channels = some color ∧
      s.maxCount < mapGet (mapIncr s.colorCounts color) color ∧
      s'.backgroundColor = color ∧
      s'.maxCount = mapGet (mapIncr s.colorCounts color) color) := by
  unfold bgBody at h
  cases hl : loadColor pixels (((y * width + x) * channels : Nat) : Int) channels with
  | none =>
    rw [hl] at h
    exact absurd h (by simp)
  | some color =>
    rw [hl] at h
    simp only [Option.bind_eq_bind, Option.some_bind] at h
    split_ifs at h with h1 h2
    · left
      have e : s = s' := Option.some.inj h
      subst e
      exact ⟨rfl, rfl⟩
    · right
      have e := Option.some.inj h
      subst e
      exact ⟨color, rfl, h2, rfl, rfl⟩
    · left
      have e := Option.some.inj h
      subst e
      exact ⟨rfl, rfl⟩

/-- A colour whose new count does not exceed the running maximum leaves the leader
in place. -/
theorem bgBody_keeps_leader (pixels : List Nat) (width channels y x : Nat) (s s' : BgScan)
    (color : ColorRGBA)
    (hl : loadColor pixels (((y * width + x) * channels : Nat) : Int) channels = some color)
    (hle : mapGet (mapIncr s.colorCounts color) color ≤ s.maxCount)
    (h : bgBody pixels width channels y x s = some s') :
    s'.backgroundColor = s.backgroundColor ∧ s'.maxCount = s.maxCount := by
  rcases bgBody_leader pixels width channels y x s s' h with hk | ⟨color', hl', hlt, _, _⟩
  · exact hk
  · rw [hl] at hl'
    have e : color = color' := Option.some.inj hl'
    subst e
    omega

/-- C17: in every iteration of the scan of `findBackgroundColor` the leader and the
running maximum stay as they are unless the running count of the scanned colour
becomes strictly greater than the running maximum, in which case that colour
becomes the leader; a colour whose count only equals the maximum does not replace
the leader.  Consequently, on a well-formed buffer with a counted pixel, the
returned colour is the one whose running count is the first to reach the final
maximum count `M`: some prefix of the row-major scan holds `M` occurrences of it
and fewer than `M` of every other colour. -/
theorem findBackgroundColor_leader (pixels : List Nat) (width height channels : Nat)
    (hwf : WellFormed pixels width height channels) (hc : channels = 3 ∨ channels = 4)
    (hq : ∃ x y, x < width ∧ y < height ∧ (pixelAt pixels width channels x y).a ≠ 0) :
    (∀ x y s s', bgBody pixels width channels y x s = some s' →
      (s'.backgroundColor = s.backgroundColor ∧ s'.maxCount = s.maxCount) ∨
      (∃ color,
        loadColor pixels (((y * width + x) * channels : Nat) : Int) channels = some color ∧
        s.maxCount < mapGet (mapIncr s.colorCounts color) color ∧
        s'.backgroundColor = color ∧
        s'.maxCount = mapGet (mapIncr s.colorCounts color) color)) ∧
    (∀ x y s s' color, bgBody pixels width channels y x s = some s' →
      loadColor pixels (((y * width + x) * channels : Nat) : Int) channels = some color →
      mapGet (mapIncr s.colorCounts color) color ≤ s.maxCount →
      s'.backgroundColor = s.backgroundColor) ∧
    ∃ bgc M, findBackgroundColor pixels width height channels = some bgc ∧
      (countedPixels pixels width height channels).count bgc = M ∧
      (∀ k, (countedPixels pixels width height channels).count k ≤ M) ∧
      ∃ n, ((countedPixels pixels width height channels).take n).count bgc = M ∧
        ∀ k, k ≠ bgc → ((countedPixels pixels width height channels).take n).count k < M := by
  refine ⟨fun x y s s' h => bgBody_leader pixels width channels y x s s' h,
    fun x y s s' color h hl hle =>
      (bgBody_keeps_leader pixels width channels y x s s' color hl hle h).1, ?_⟩
  obtain ⟨s, hrun, hinv⟩ := findBackgroundColor_spec pixels width height channels hwf hc
  obtain ⟨_, hcnt, n, _, hn1, hn2⟩ :=
    hinv.leader (countedPixels_ne_nil pixels width height channels hq)
  exact ⟨s.backgroundColor, s.maxCount, hrun, hcnt, hinv.maxle, n, hn1, hn2⟩

/-- Instance of the leader theorem on the 4x1 image `A B B A`. -/
theorem findBackgroundColor_leader_witness :
    (∀ x y s s', bgBody tieImage 4 3 y x s = some s' →
      (s'.backgroundColor = s.backgroundColor ∧ s'.maxCount = s.maxCount) ∨
      (∃ color,
        loadColor tieImage (((y * 4 + x) * 3 : Nat) : Int) 3 = some color ∧
        s.maxCount < mapGet (mapIncr s.colorCounts color) color ∧
        s'.backgroundColor = color ∧
        s'.maxCount = mapGet (mapIncr s.colorCounts color) color)) ∧
    (∀ x y s s' color, bgBody tieImage 4 3 y x s = some s' →
      loadColor tieImage (((y * 4 + x) * 3 : Nat) : Int) 3 = some color →
      mapGet (mapIncr s.colorCounts color) color ≤ s.maxCount →
      s'.backgroundColor = s.backgroundColor) ∧
    ∃ bgc M, findBackgroundColor tieImage 4 1 3 = some bgc ∧
      (countedPixels tieImage 4 1 3).count bgc = M ∧
      (∀ k, (countedPixels tieImage 4 1 3).count k ≤ M) ∧
      ∃ n, ((countedPixels tieImage 4 1 3).take n).count bgc = M ∧
        ∀ k, k ≠ bgc → ((countedPixels tieImage 4 1 3).take n).count k < M :=
  findBackgroundColor_leader tieImage 4 1 3 (by decide) (Or.inl rfl) ⟨0, 0, by decide⟩

/-! ## Rounding of the output dimensions -/

/-- C18: for every input size `1 ≤ w, h ≤ INT_MAX` and the target 360 x 180, with
`s = min (360 / w) (180 / h)` in exact arithmetic, an output dimension of `resizeImage`,
computed in `double` as the code does, that is not raised by the clamp to `1` is
within `1/2` of the exactly scaled value: `|outW - w * s| ≤ 1/2` and
`|outH - h * s| ≤ 1/2`. -/
theorem resizeImageDims_rounding (w h : Int) (hw : 1 ≤ w) (hh : 1 ≤ h)
    (hwmax : w ≤ 2147483647) (hhmax : h ≤ 2147483647) :
    (1 ≤ (resizeImageRaw w h).1 →
      |(((resizeImageDims w h).1 : Int) : ℚ) - (w : ℚ) * min ((360 : ℚ) / w) ((180 : ℚ) / h)|
        ≤ 1 / 2) ∧
    (1 ≤ (resizeImageRaw w h).2 →
      |(((resizeImageDims w h).2 : Int) : ℚ) - (h : ℚ) * min ((360 : ℚ) / w) ((180 : ℚ) / h)|
        ≤ 1 / 2) := by
  obtain ⟨pw, ph, hraw, pw0, ph0, ew, eh, qw, qh⟩ := resizeImageRaw_analysis w h hw hh
  have hwq : (0 : ℚ) < w := by exact_mod_cast (by omega : (0 : Int) < w)
  have hhq : (0 : ℚ) < h := by exact_mod_cast (by omega : (0 : Int) < h)
  have hwb : (w : ℚ) ≤ 2147483647 := by exact_mod_cast hwmax
  have hhb : (h : ℚ) ≤ 2147483647 := by exact_mod_cast hhmax
  have small : ∀ D : ℚ, 0 < D → D ≤ 2147483647 → (1 : ℚ) / 2 ^ 42 < 1 / (2 * D) := by
    intro D hD hDb
    apply one_div_lt_one_div_of_lt (by linarith)
    norm_num
    linarith
  -- twice the denominator times the exact value is an integer
  have kw : ∃ K : Int, 2 * (h : ℚ) * ((w : ℚ) * min ((360 : ℚ) / w) ((180 : ℚ) / h)) = K := by
    rcases le_total ((360 : ℚ) / w) ((180 : ℚ) / h) with hle | hle
    · refine ⟨720 * h, ?_⟩
      rw [min_eq_left hle]
      push_cast
      field_simp
      ring
    · refine ⟨360 * w, ?_⟩
      rw [min_eq_right hle]
      push_cast
      field_simp
      ring
  have kh : ∃ K : Int, 2 * (w : ℚ) * ((h : ℚ) * min ((360 : ℚ) / w) ((180 : ℚ) / h)) = K := by
    rcases le_total ((360 : ℚ) / w) ((180 : ℚ) / h) with hle | hle
    · refine ⟨720 * h, ?_⟩
      rw [min_eq_left hle]
      push_cast
      field_simp
      ring
    · refine ⟨360 * w, ?_⟩
      rw [min_eq_right hle]
      push_cast
      field_simp
      ring
  obtain ⟨Kw, hKw⟩ := kw
  obtain ⟨Kh, hKh⟩ := kh
  have cw := stdRound_close pw _ h Kw (by omega) hKw pw0
    (lt_of_le_of_lt ew (small h hhq hhb))
  have ch := stdRound_close ph _ w Kh (by omega) hKh ph0
    (lt_of_le_of_lt eh (small w hwq hwb))
  constructor
  · intro h1
    have e1 : (resizeImageDims w h).1 = stdRound pw := by
      rw [hraw] at h1
      simp only [resizeImageDims, hraw]
      exact max_eq_right h1
    rw [e1]
    exact cw
  · intro h1
    have e2 : (resizeImageDims w h).2 = stdRound ph := by
      rw [hraw] at h1
      simp only [resizeImageDims, hraw]
      exact max_eq_right h1
    rw [e2]
    exact ch

/-- Instance of the rounding bound for an 11 x 264 input, whose exactly scaled width
`7.5` is a halfway case. -/
theorem resizeImageDims_rounding_witness :
    (1 ≤ (resizeImageRaw 11 264).1 →
      |(((resizeImageDims 11 264).1 : Int) : ℚ) -
          ((11 : Int) : ℚ) * min ((360 : ℚ) / (11 : Int)) ((180 : ℚ) / (264 : Int))|
        ≤ 1 / 2) ∧
    (1 ≤ (resizeImageRaw 11 264).2 →
      |(((resizeImageDims 11 264).2 : Int) : ℚ) -
          ((264 : Int) : ℚ) * min ((360 : ℚ) / (11 : Int)) ((180 : ℚ) / (264 : Int))|
        ≤ 1 / 2) :=
  resizeImageDims_rounding 11 264 (by decide) (by decide) (by decide) (by decide)

/-! ## Three channels as four channels with alpha 255 -/

theorem expandAlpha_samples (n : Nat) : ∀ p : List Nat, p.length = 3 * n →
    (expandAlpha p).length = 4 * n ∧
    ∀ m, m < n →
      sample (expandAlpha p) (4 * m) = sample p (3 * m) ∧
      sample (expandAlpha p) (4 * m + 1) = sample p (3 * m + 1) ∧
      sample (expandAlpha p) (4 * m + 2) = sample p (3 * m + 2) ∧
      sample (expandAlpha p) (4 * m + 3) = 255 := by
  induction n with
  | zero =>
    intro p hp
    have : p = [] := List.length_eq_zero.mp (by omega)
    subst this
    exact ⟨rfl, fun m hm => absurd hm (Nat.not_lt_zero m)⟩
  | succ n ih =>
    intro p hp
    match p, hp with
    | r :: g :: b :: rest, hp =>
      have hrest : rest.length = 3 * n := by
        simp only [List.length_cons] at hp
        omega
      obtain ⟨hlen, hs⟩ := ih rest hrest
      refine ⟨?_, ?_⟩
      · simp only [expandAlpha, List.length_cons, hlen]
        omega
      · intro m hm
        cases m with
        | zero => simp [expandAlpha, sample]
        | succ m =>
          obtain ⟨s0, s1, s2, s3⟩ := hs m (by omega)
          have e4 : ∀ j, sample (expandAlpha (r :: g :: b :: rest)) (j + 4)
              = sample (expandAlpha rest) j := by
            intro j
            simp [expandAlpha, sample]
          have e3 : ∀ j, sample (r :: g :: b :: rest) (j + 3) = sample rest j := by
            intro j
            simp [sample]
          rw [show 4 * (m + 1) = 4 * m + 4 by omega,
            show 4 * m + 4 + 1 = 4 * m + 1 + 4 by omega,
            show 4 * m + 4 + 2 = 4 * m + 2 + 4 by omega,
            show 4 * m + 4 + 3 = 4 * m + 3 + 4 by omega,
            show 3 * (m + 1) = 3 * m + 3 by omega,
            show 3 * m + 3 + 1 = 3 * m + 1 + 3 by omega,
            show 3 * m + 3 + 2 = 3 * m + 2 + 3 by omega,
            e4, e4, e4, e4, e3, e3, e3]
          exact ⟨s0, s1, s2, s3⟩
    | [], hp => exact absurd hp (by simp only [List.length_nil]; omega)
    | [_], hp => exact absurd hp (by simp only [List.length_cons, List.length_nil]; omega)
    | [_, _], hp => exact absurd hp (by simp only [List.length_cons, List.length_nil]; omega)

theorem expandAlpha_wellFormed (p : List Nat) (width height : Nat)
    (hwf : WellFormed p width height 3) : WellFormed (expandAlpha p) width height 4 := by
  unfold WellFormed at hwf ⊢
  rw [(expandAlpha_samples (width * height) p (by omega)).1]
  omega

theorem pixelAt_expandAlpha (p : List Nat) (width height x y : Nat)
    (hwf : WellFormed p width height 3) (hx : x < width) (hy : y < height) :
    pixelAt (expandAlpha p) width 4 x y = pixelAt p width 3 x y := by
  unfold WellFormed at hwf
  have hm : y * width + x < width * height := by
    have := sample_index_lt width height 1 x y 0 hx hy (by omega)
    omega
  obtain ⟨s0, s1, s2, s3⟩ :=
    (expandAlpha_samples (width * height) p (by omega)).2 (y * width + x) hm
  rw [pixelAt_four]
  simp only [pixelAt, show ¬ (3 = 4) by decide, if_false]
  rw [Nat.mul_comm (y * width + x) 4, Nat.mul_comm (y * width + x) 3, s0, s1, s2, s3]

theorem imagePixels_congr (p p' : List Nat) (width height channels channels' : Nat)
    (h : ∀ x y, x < width → y < height →
      pixelAt p' width channels' x y = pixelAt p width channels x y) :
    imagePixels p' width height channels' = imagePixels p width height channels := by
  unfold imagePixels List.flatMap
  congr 1
  apply List.map_congr_left
  intro y hy
  unfold imageRow
  apply List.map_congr_left
  intro x hx
  exact h x y (List.mem_range.mp hx) (List.mem_range.mp hy)

/-- The scan invariant determines the leader. -/
theorem bgInv_leader_unique (L : List ColorRGBA) (s s' : BgScan) (h : BgInv L s)
    (h' : BgInv L s') : s.backgroundColor = s'.backgroundColor := by
  by_cases hL : L = []
  · rw [(h.start hL).2, (h'.start hL).2]
  · obtain ⟨_, hcnt, n, _, hn1, hn2⟩ := h.leader hL
    obtain ⟨_, hcnt', n', _, hn1', hn2'⟩ := h'.leader hL
    have hM : s.maxCount = s'.maxCount := by
      have a := h.maxle s'.backgroundColor
      have b := h'.maxle s.backgroundColor
      omega
    by_contra hne
    have mono : ∀ a b : Nat, a ≤ b → ∀ k : ColorRGBA,
        (L.take a).count k ≤ (L.take b).count k := by
      intro a b hab k
      have e : L.take a = (L.take b).take a := by
        rw [List.take_take, Nat.min_eq_left hab]
      rw [e]
      exact (List.take_sublist a (L.take b)).count_le k
    rcases Nat.le_total n n' with hle | hle
    · have a := mono n n' hle s.backgroundColor
      have b := hn2' s.backgroundColor hne
      omega
    · have a := mono n' n hle s'.backgroundColor
      have b := hn2 s'.backgroundColor (fun e => hne e.symm)
      omega

/-- Two well-formed buffers with the same pixel colours have the same estimated
background colour. -/
theorem findBackgroundColor_eq_of_pixels (p p' : List Nat)
    (width height channels channels' : Nat)
    (hwf : WellFormed p width height channels) (hc : channels = 3 ∨ channels = 4)
    (hwf' : WellFormed p' width height channels') (hc' : channels' = 3 ∨ channels' = 4)
    (h : ∀ x y, x < width → y < height →
      pixelAt p' width channels' x y = pixelAt p width channels x y) :
    findBackgroundColor p' width height channels' = findBackgroundColor p width height channels := by
  obtain ⟨s, hrun, hinv⟩ := findBackgroundColor_spec p width height channels hwf hc
  obtain ⟨s', hrun', hinv'⟩ := findBackgroundColor_spec p' width height channels' hwf' hc'
  have e : countedPixels p' width height channels' = countedPixels p width height channels := by
    unfold countedPixels
    rw [imagePixels_congr p p' width height channels channels' h]
  rw [e] at hinv'
  rw [hrun, hrun', bgInv_leader_unique _ s' s hinv' hinv]

/-- Two 4-channel buffers of the same size with the same pixel colours are equal. -/
theorem buffer_ext (out out' : List Nat) (W H : Nat)
    (hlen : WellFormed out W H 4) (hlen' : WellFormed out' W H 4)
    (h : ∀ x y, x < W → y < H → pixelAt out W 4 x y = pixelAt out' W 4 x y) :
    out = out' := by
  unfold WellFormed at hlen hlen'
  have key : ∀ i, i < W * H * 4 → sample out i = sample out' i := by
    intro i hi
    have hWpos : 0 < W := by
      rcases Nat.eq_zero_or_pos W with h0 | h0
      · rw [h0] at hi; omega
      · exact h0
    have hm : i / 4 < W * H := by omega
    have hy : i / 4 / W < H := Nat.div_lt_of_lt_mul hm
    have hx : i / 4 % W < W := Nat.mod_lt _ hWpos
    have hxy : i / 4 / W * W + i / 4 % W = i / 4 := by
      rw [Nat.mul_comm]; exact Nat.div_add_mod (i / 4) W
    have e := h (i / 4 % W) (i / 4 / W) hx hy
    rw [pixelAt_four, pixelAt_four, hxy] at e
    simp only [ColorRGBA.mk.injEq] at e
    obtain ⟨e0, e1, e2, e3⟩ := e
    have hk : i = i / 4 * 4 ∨ i = i / 4 * 4 + 1 ∨ i = i / 4 * 4 + 2 ∨ i = i / 4 * 4 + 3 := by
      omega
    rcases hk with hk | hk | hk | hk <;> rw [hk]
    · exact e0
    · exact e1
    · exact e2
    · exact e3
  apply List.ext_getElem (by rw [hlen, hlen'])
  intro i h1 h2
  have := key i (by rw [← hlen]; exact h1)
  simpa [sample, List.getD_eq_getElem?_getD, List.getElem?_eq_getElem h1,
    List.getElem?_eq_getElem h2] using this

/-- C20: a 3-channel buffer is treated as the 4-channel buffer with the same
`R, G, B` samples and every alpha `255`: for a well-formed 3-channel buffer, every
background colour and every box with `0 ≤ left ≤ right < width` and
`0 ≤ top ≤ bottom < height`, the functions `findBackgroundColor`,
`findContentBoundingBox` and `trimImage` return the same results on the buffer as
on its expansion. -/
theorem three_channels_as_four (alloc : Nat → Option (List Nat)) (p : List Nat)
    (width height : Nat) (bg : ColorRGBA) (B : BoundingBox)
    (hwf : WellFormed p width height 3) (halloc : AllocOk alloc)
    (hl : 0 ≤ B.left) (hlr : B.left ≤ B.right) (hr : B.right < width)
    (ht : 0 ≤ B.top) (htb : B.top ≤ B.bottom) (hb : B.bottom < height) :
    WellFormed (expandAlpha p) width height 4 ∧
    findBackgroundColor p width height 3 = findBackgroundColor (expandAlpha p) width height 4 ∧
    findContentBoundingBox p width height 3 bg
      = findContentBoundingBox (expandAlpha p) width height 4 bg ∧
    trimImage alloc p width 3 B = trimImage alloc (expandAlpha p) width 4 B := by
  have hwf' := expandAlpha_wellFormed p width height hwf
  have hpix := fun x y hx hy => pixelAt_expandAlpha p width height x y hwf hx hy
  refine ⟨hwf', ?_, ?_, ?_⟩
  · exact (findBackgroundColor_eq_of_pixels p (expandAlpha p) width height 3 4 hwf (Or.inl rfl)
      hwf' (Or.inr rfl) hpix).symm
  · apply findContentBoundingBox_eq_of_content p (expandAlpha p) width height 3 4 bg bg hwf
      (Or.inl rfl) hwf' (Or.inr rfl)
    intro x y
    unfold IsContent
    constructor
    · rintro ⟨hx, hy, hnb⟩
      refine ⟨hx, hy, ?_⟩
      rw [hpix x y hx hy, isBackground_four_iff p width 3 x y bg (Or.inl rfl)]
      exact hnb
    · rintro ⟨hx, hy, hnb⟩
      refine ⟨hx, hy, ?_⟩
      rw [hpix x y hx hy, isBackground_four_iff p width 3 x y bg (Or.inl rfl)] at hnb
      exact hnb
  · rcases B with ⟨t, l, b, r⟩
    dsimp only at hl hlr hr ht htb hb
    lift l to ℕ using hl
    lift t to ℕ using ht
    lift r to ℕ using (by omega)
    lift b to ℕ using (by omega)
    have hlr' : l ≤ r := by exact_mod_cast hlr
    have htb' : t ≤ b := by exact_mod_cast htb
    have hr' : r < width := by exact_mod_cast hr
    have hb' : b < height := by exact_mod_cast hb
    cases ha : alloc ((r - l + 1) * (b - t + 1) * 4) with
    | none =>
      have ha' : alloc ((BoundingBox.mk t l b r).width.toNat *
          (BoundingBox.mk t l b r).height.toNat * 4) = none := by
        rw [width_natCast t l b r hlr', height_natCast t l b r htb']
        simp only [Int.toNat_ofNat]
        exact ha
      rw [trimImage_of_alloc_none alloc p width 3 _ ha',
        trimImage_of_alloc_none alloc (expandAlpha p) width 4 _ ha']
    | some buf0 =>
      obtain ⟨out, hrun, hlen, hout⟩ := trimImage_nat alloc p width height 3 l t r b
        buf0 hwf (Or.inl rfl) hlr' hr' htb' hb' ha (halloc _ _ ha)
      obtain ⟨out', hrun', hlen', hout'⟩ := trimImage_nat alloc (expandAlpha p) width height 4
        l t r b buf0 hwf' (Or.inr rfl) hlr' hr' htb' hb' ha (halloc _ _ ha)
      have e : out = out' := by
        apply buffer_ext out out' (r - l + 1) (b - t + 1) hlen hlen'
        intro x y hx hy
        rw [hout x y hx hy, hout' x y hx hy, hpix (l + x) (t + y) (by omega) (by omega)]
      rw [hrun, hrun', e]

/-- Instance of the expansion theorem on the 4x1 image `A B B A`. -/
theorem three_channels_as_four_witness :
    WellFormed (expandAlpha tieImage) 4 1 4 ∧
    findBackgroundColor tieImage 4 1 3 = findBackgroundColor (expandAlpha tieImage) 4 1 4 ∧
    findContentBoundingBox tieImage 4 1 3 ⟨1, 2, 3, 255⟩
      = findContentBoundingBox (expandAlpha tieImage) 4 1 4 ⟨1, 2, 3, 255⟩ ∧
    trimImage allocZero tieImage 4 3 (BoundingBox.mk 0 1 0 2)
      = trimImage allocZero (expandAlpha tieImage) 4 4 (BoundingBox.mk 0 1 0 2) :=
  three_channels_as_four allocZero tieImage 4 1 ⟨1, 2, 3, 255⟩ (BoundingBox.mk 0 1 0 2)
    (by decide) allocZero_ok (by decide) (by decide) (by decide) (by decide) (by decide)
    (by decide)

/-! ## The batch loop -/

/-- On a valid box returned by the detection `trimImage` runs to completion. -/
theorem trimImage_total_of_detected (alloc : Nat → Option (List Nat)) (pixels : List Nat)
    (width height channels : Nat) (bg : ColorRGBA) (B : BoundingBox)
    (hwf : WellFormed pixels width height channels) (hc : channels = 3 ∨ channels = 4)
    (hdet : findContentBoundingBox pixels width height channels bg = some B)
    (hvalid : B.isValid = true) (halloc : AllocOk alloc) :
    ∃ res, trimImage alloc pixels width channels B = some res := by
  obtain ⟨bbox, hrun, hempty, htight⟩ :=
    findContentBoundingBox_spec pixels width height channels bg hwf hc
  have hB : bbox = B := Option.some.inj (hrun.symm.trans hdet)
  subst hB
  have hne : ∃ x y, IsContent pixels width height channels bg x y := by
    by_contra hno
    rw [hempty hno] at hvalid
    exact absurd hvalid (by decide)
  obtain ⟨l, t, r, b, rfl, hlr, hr, htb, hb⟩ := (htight hne).sides
  obtain ⟨res, hres, _⟩ := trimImage_total_nat alloc pixels width height channels l t r b
    hwf hc hlr hr htb hb halloc
  exact ⟨res, hres⟩

/-- An image that passes every stage adds one to `successCount`. -/
theorem processFile_of_succeeds (sv : Services) (c : Counts) (h : Succeeds sv) :
    processFile sv c = some { c with successCount := c.successCount + 1 } := by
  obtain ⟨img, bg, bbox, t, trimmed, resized, h1, h2, h3, h4, h5, h6, h7, h8, h9⟩ := h
  unfold processFile
  simp only [h1, h3, h4, h5, h6, h7, h8, h9, if_neg (Nat.not_lt.mpr h2), Option.bind_eq_bind,
    Option.some_bind, Bool.not_true, Bool.false_eq_true, if_false, if_true, Option.pure_def]

/-- An image that does not pass every stage adds one to `failCount`. -/
theorem processFile_of_not_succeeds (sv : Services) (c : Counts) (hok : ServicesOk sv)
    (h : ¬ Succeeds sv) :
    processFile sv c = some { c with failCount := c.failCount + 1 } := by
  unfold processFile
  cases hload : sv.stbi_load with
  | none => rfl
  | some img =>
    dsimp only
    by_cases hch : img.channels < 3
    · rw [if_pos hch]
    · rw [if_neg hch]
      obtain ⟨hwf, h4⟩ := hok.1 img hload
      have hc : img.channels = 3 ∨ img.channels = 4 := by omega
      obtain ⟨s, hbg, _⟩ :=
        findBackgroundColor_spec img.pixels img.width img.height img.channels hwf hc
      obtain ⟨bbox, hbox, _, _⟩ := findContentBoundingBox_spec img.pixels img.width img.height
        img.channels s.backgroundColor hwf hc
      simp only [hbg, hbox, Option.bind_eq_bind, Option.some_bind]
      cases hvalid : bbox.isValid with
      | false => rfl
      | true =>
        obtain ⟨t, ht⟩ := trimImage_total_of_detected sv.allocTrimmed img.pixels img.width
          img.height img.channels s.backgroundColor bbox hwf hc hbox hvalid hok.2
        simp only [ht, Bool.not_true, Bool.false_eq_true, if_false, Option.some_bind]
        cases htp : t.pixels with
        | none => rfl
        | some trimmed =>
          dsimp only
          cases hrp : (resizeImage sv.allocResized sv.stbir_resize_uint8 trimmed
              t.outWidth t.outHeight).pixels with
          | none => rfl
          | some resized =>
            dsimp only
            cases hw : sv.stbi_write_png
                (resizeImage sv.allocResized sv.stbir_resize_uint8 trimmed
                  t.outWidth t.outHeight).outWidth
                (resizeImage sv.allocResized sv.stbir_resize_uint8 trimmed
                  t.outWidth t.outHeight).outHeight resized with
            | false => rfl
            | true =>
              exact absurd ⟨img, s.backgroundColor, bbox, t, trimmed, resized, hload,
                Nat.le_of_not_lt hch, hbg, hbox, hvalid, ht, htp, hrp, hw⟩ h

/-- C13: in one iteration of the loop of `main`, with services that respect their
contracts, the image is counted as a success exactly when decoding succeeds, the
buffer has at least three channels, the detected box is valid, `trimImage` and
`resizeImage` return buffers and the PNG write succeeds; in every other case the
iteration adds one to `failCount` and leaves `successCount` alone, in particular
when the detected box is empty. -/
theorem processFile_counts (sv : Services) (c : Counts) (hok : ServicesOk sv) :
    (processFile sv c
        = some { successCount := c.successCount + 1, failCount := c.failCount } ↔
      Succeeds sv) ∧
    (¬ Succeeds sv →
      processFile sv c
        = some { successCount := c.successCount, failCount := c.failCount + 1 }) ∧
    (∀ img bg bbox, sv.stbi_load = some img → 3 ≤ img.channels →
      findBackgroundColor img.pixels img.width img.height img.channels = some bg →
      findContentBoundingBox img.pixels img.width img.height img.channels bg = some bbox →
      bbox.isValid = false →
      processFile sv c
        = some { successCount := c.successCount, failCount := c.failCount + 1 }) := by
  have hfail : ¬ Succeeds sv → processFile sv c
      = some { successCount := c.successCount, failCount := c.failCount + 1 } :=
    fun h => processFile_of_not_succeeds sv c hok h
  refine ⟨⟨?_, fun h => processFile_of_succeeds sv c h⟩, hfail, ?_⟩
  · intro h
    by_contra hno
    rw [hfail hno] at h
    have e := congrArg Counts.successCount (Option.some.inj h)
    dsimp only at e
    omega
  · intro img bg bbox hload _ hbg hbox hinvalid
    apply hfail
    rintro ⟨img', bg', bbox', _, _, _, h1, _, h3, h4, h5, _⟩
    rw [hload] at h1
    have e1 : img = img' := Option.some.inj h1
    subst e1
    rw [hbg] at h3
    have e2 : bg = bg' := Option.some.inj h3
    subst e2
    rw [hbox] at h4
    have e3 : bbox = bbox' := Option.some.inj h4
    subst e3
    rw [hinvalid] at h5
    exact Bool.noConfusion h5

theorem servicesFor_ok (img : Decoded)
    (hwf : WellFormed img.pixels img.width img.height img.channels) (h4 : img.channels ≤ 4) :
    ServicesOk (servicesFor img) := by
  refine ⟨?_, allocZero_ok⟩
  intro img' h
  have e : img = img' := Option.some.inj h
  subst e
  exact ⟨hwf, h4⟩

/-- Instance of the per-image outcome on the 4x1 image `A B B A` with services that
all succeed. -/
theorem processFile_counts_witness :
    (processFile (servicesFor ⟨tieImage, 4, 1, 3⟩) ⟨0, 0⟩
        = some { successCount := (0 : Int) + 1, failCount := 0 } ↔
      Succeeds (servicesFor ⟨tieImage, 4, 1, 3⟩)) ∧
    (¬ Succeeds (servicesFor ⟨tieImage, 4, 1, 3⟩) →
      processFile (servicesFor ⟨tieImage, 4, 1, 3⟩) ⟨0, 0⟩
        = some { successCount := 0, failCount := (0 : Int) + 1 }) ∧
    (∀ img bg bbox, (servicesFor ⟨tieImage, 4, 1, 3⟩).stbi_load = some img →
      3 ≤ img.channels →
      findBackgroundColor img.pixels img.width img.height img.channels = some bg →
      findContentBoundingBox img.pixels img.width img.height img.channels bg = some bbox →
      bbox.isValid = false →
      processFile (servicesFor ⟨tieImage, 4, 1, 3⟩) ⟨0, 0⟩
        = some { successCount := 0, failCount := (0 : Int) + 1 }) :=
  processFile_counts (servicesFor ⟨tieImage, 4, 1, 3⟩) ⟨0, 0⟩
    (servicesFor_ok ⟨tieImage, 4, 1, 3⟩ (by decide) (by decide))

/-- Running the loop body over a list of inputs adds to the counters amounts that do
not depend on their initial values and that sum to the number of inputs. -/
theorem loop_from (l : List Services) (hok : ∀ sv ∈ l, ServicesOk sv) :
    ∃ ds df : Int, 0 ≤ ds ∧ 0 ≤ df ∧ ds + df = (l.length : Int) ∧
      ∀ c : Counts, l.foldlM (fun c sv => processFile sv c) c
        = some { successCount := c.successCount + ds, failCount := c.failCount + df } := by
  induction l with
  | nil =>
    refine ⟨0, 0, le_refl _, le_refl _, by simp, ?_⟩
    intro c
    simp [List.foldlM]
  | cons sv rest ih =>
    obtain ⟨ds, df, hds, hdf, hsum, hrest⟩ := ih (fun sv' h => hok sv' (List.mem_cons_of_mem _ h))
    have hsv := hok sv (List.mem_cons_self _ _)
    by_cases hs : Succeeds sv
    · refine ⟨1 + ds, df, by omega, hdf, by simp only [List.length_cons]; push_cast; omega, ?_⟩
      intro c
      rw [List.foldlM_cons, processFile_of_succeeds sv c hs]
      show rest.foldlM (fun c sv => processFile sv c) _ = _
      rw [hrest]
      congr 2
      dsimp only
      omega
    · refine ⟨ds, 1 + df, hds, by omega, by simp only [List.length_cons]; push_cast; omega, ?_⟩
      intro c
      rw [List.foldlM_cons, processFile_of_not_succeeds sv c hsv hs]
      show rest.foldlM (fun c sv => processFile sv c) _ = _
      rw [hrest]
      congr 2
      dsimp only
      omega

/-- C14: for every sequence of inputs whose services respect their contracts,
whatever the outcome of each stage, the loop of `main` runs over all inputs and ends
with `successCount + failCount` equal to the number of inputs; for a concatenated
sequence the counters are the sums of the counters of the two parts. -/
theorem mainLoop_counts (a b : List Services) (ha : ∀ sv ∈ a, ServicesOk sv)
    (hb : ∀ sv ∈ b, ServicesOk sv) :
    ∃ ca cb cab, mainLoop a = some ca ∧ mainLoop b = some cb ∧
      mainLoop (a ++ b) = some cab ∧
      ca.successCount + ca.failCount = (a.length : Int) ∧
      cb.successCount + cb.failCount = (b.length : Int) ∧
      cab.successCount + cab.failCount = ((a ++ b).length : Int) ∧
      cab.successCount = ca.successCount + cb.successCount ∧
      cab.failCount = ca.failCount + cb.failCount ∧
      0 ≤ ca.successCount ∧ 0 ≤ ca.failCount := by
  obtain ⟨sa, fa, hsa, hfa, hsuma, hruna⟩ := loop_from a ha
  obtain ⟨sb, fb, hsb, hfb, hsumb, hrunb⟩ := loop_from b hb
  refine ⟨⟨0 + sa, 0 + fa⟩, ⟨0 + sb, 0 + fb⟩, ⟨0 + sa + sb, 0 + fa + fb⟩, hruna _, hrunb _,
    ?_, ?_, ?_, ?_, ?_, ?_, ?_, ?_⟩
  · unfold mainLoop
    rw [List.foldlM_append, hruna]
    show b.foldlM (fun c sv => processFile sv c) _ = _
    rw [hrunb]
  · dsimp only; omega
  · dsimp only; omega
  · dsimp only; rw [List.length_append]; push_cast; omega
  · dsimp only; omega
  · dsimp only; omega
  · dsimp only; omega
  · dsimp only; omega

/-- Instance of the batch theorem: a failing decode followed by a good image, and a
second failing decode. -/
theorem mainLoop_counts_witness :
    ∃ ca cb cab,
      mainLoop [{ servicesFor ⟨tieImage, 4, 1, 3⟩ with stbi_load := none },
        servicesFor ⟨tieImage, 4, 1, 3⟩] = some ca ∧
      mainLoop [{ servicesFor ⟨tieImage, 4, 1, 3⟩ with stbi_load := none }] = some cb ∧
      mainLoop ([{ servicesFor ⟨tieImage, 4, 1, 3⟩ with stbi_load := none },
          servicesFor ⟨tieImage, 4, 1, 3⟩] ++
        [{ servicesFor ⟨tieImage, 4, 1, 3⟩ with stbi_load := none }]) = some cab ∧
      ca.successCount + ca.failCount
        = (([{ servicesFor ⟨tieImage, 4, 1, 3⟩ with stbi_load := none },
          servicesFor ⟨tieImage, 4, 1, 3⟩] : List Services).length : Int) ∧
      cb.successCount + cb.failCount
        = (([{ servicesFor ⟨tieImage, 4, 1, 3⟩ with stbi_load := none }] :
          List Services).length : Int) ∧
      cab.successCount + cab.failCount
        = ((([{ servicesFor ⟨tieImage, 4, 1, 3⟩ with stbi_load := none },
          servicesFor ⟨tieImage, 4, 1, 3⟩] ++
          [{ servicesFor ⟨tieImage, 4, 1, 3⟩ with stbi_load := none }] :
            List Services)).length : Int) ∧
      cab.successCount = ca.successCount + cb.successCount ∧
      cab.failCount = ca.failCount + cb.failCount ∧
      0 ≤ ca.successCount ∧ 0 ≤ ca.failCount :=
  mainLoop_counts
    [{ servicesFor ⟨tieImage, 4, 1, 3⟩ with stbi_load := none },
      servicesFor ⟨tieImage, 4, 1, 3⟩]
    [{ servicesFor ⟨tieImage, 4, 1, 3⟩ with stbi_load := none }]
    (by
      intro sv hsv
      simp only [List.mem_cons, List.mem_singleton, List.not_mem_nil, or_false] at hsv
      rcases hsv with rfl | rfl
      · exact ⟨fun img h => absurd h (by simp), allocZero_ok⟩
      · exact servicesFor_ok ⟨tieImage, 4, 1, 3⟩ (by decide) (by decide))
    (by
      intro sv hsv
      simp only [List.mem_singleton] at hsv
      subst hsv
      exact ⟨fun img h => absurd h (by simp), allocZero_ok⟩)

/-- C11: on a well-formed buffer in which all pixels have one and the same colour,
with three or four channels and any alpha, `findContentBoundingBox` applied with
the colour returned by `findBackgroundColor` returns the empty box, and the
iteration of `main` that decodes this buffer adds one to `failCount`. -/
theorem uniform_image_fails (pixels : List Nat) (width height channels : Nat)
    (C : ColorRGBA) (hwf : WellFormed pixels width height channels)
    (hc : channels = 3 ∨ channels = 4)
    (hall : ∀ x y, x < width → y < height → pixelAt pixels width channels x y = C) :
    ∃ bg, findBackgroundColor pixels width height channels = some bg ∧
      findContentBoundingBox pixels width height channels bg
        = some { top := 0, left := 0, bottom := -1, right := -1 } ∧
      ∀ (sv : Services) (c : Counts),
        sv.stbi_load = some ⟨pixels, width, height, channels⟩ →
        processFile sv c
          = some { successCount := c.successCount, failCount := c.failCount + 1 } := by
  obtain ⟨s, hrun, hinv⟩ := findBackgroundColor_spec pixels width height channels hwf hc
  obtain ⟨bbox, hbox, hempty, _⟩ := findContentBoundingBox_spec pixels width height channels
    s.backgroundColor hwf hc
  have hno : ¬ ∃ x y, IsContent pixels width height channels s.backgroundColor x y := by
    rintro ⟨x, y, hx, hy, hnb⟩
    apply hnb
    by_cases hL : countedPixels pixels width height channels = []
    · right
      have ha : (pixelAt pixels width channels x y).a = 0 := by
        by_contra hne
        have hmem := (mem_countedPixels pixels width height channels _).mpr
          ⟨x, y, hx, hy, rfl, hne⟩
        rw [hL] at hmem
        exact absurd hmem (List.not_mem_nil _)
      rcases hc with h3 | h4
      · subst h3
        rw [pixelAt_alpha_three] at ha
        omega
      · exact ⟨h4, by omega⟩
    · left
      obtain ⟨hpos, hcnt, _⟩ := hinv.leader hL
      have hmem : s.backgroundColor ∈ countedPixels pixels width height channels := by
        rw [← List.count_pos_iff, hcnt]
        exact hpos
      obtain ⟨x', y', hx', hy', e, _⟩ :=
        (mem_countedPixels pixels width height channels _).mp hmem
      rw [hall x y hx hy, ← e, hall x' y' hx' hy']
  have hbox' : findContentBoundingBox pixels width height channels s.backgroundColor
      = some { top := 0, left := 0, bottom := -1, right := -1 } := by
    rw [hbox, hempty hno]
    rfl
  refine ⟨s.backgroundColor, hrun, hbox', ?_⟩
  intro sv c hload
  have h3 : ¬ channels < 3 := by omega
  unfold processFile
  simp only [hload, hrun, hbox', if_neg h3, Option.bind_eq_bind, Option.some_bind]
  rfl

/-- Instance of the uniform-image theorem on a 1x2 four-channel image of one colour. -/
theorem uniform_image_fails_witness :
    ∃ bg, findBackgroundColor [9, 8, 7, 200, 9, 8, 7, 200] 1 2 4 = some bg ∧
      findContentBoundingBox [9, 8, 7, 200, 9, 8, 7, 200] 1 2 4 bg
        = some { top := 0, left := 0, bottom := -1, right := -1 } ∧
      ∀ (sv : Services) (c : Counts),
        sv.stbi_load = some ⟨[9, 8, 7, 200, 9, 8, 7, 200], 1, 2, 4⟩ →
        processFile sv c
          = some { successCount := c.successCount, failCount := c.failCount + 1 } :=
  uniform_image_fails [9, 8, 7, 200, 9, 8, 7, 200] 1 2 4 ⟨9, 8, 7, 200⟩ (by decide)
    (Or.inr rfl)
    (fun x y hx hy =>
      (by decide : ∀ x, x < 1 → ∀ y, y < 2 →
        pixelAt [9, 8, 7, 200, 9, 8, 7, 200] 1 4 x y = ⟨9, 8, 7, 200⟩) x hx y hy)

end TrimImage

